import Mathlib

/-!
Verification development for the documentation-viewer's in-memory catalog
index, search engine, type-reference extractor and collaborator lookup
services.  The TypeScript sources are shallowly embedded: JavaScript `Map`s
become insertion-ordered association lists (`mset` keeps the original slot on
overwrite, exactly like `Map.prototype.set`), JavaScript strings become Lean
`String`s manipulated through their character lists, and the regular
expressions of the sources are replaced by equivalent explicit scanners.
All definitions are executable so that concrete corpora can be evaluated
inside proofs.
-/

namespace RimDocs

/-! ## JavaScript string primitives -/

/-- Word character of the JavaScript regex class `\w` / `[a-zA-Z0-9_]`. -/
def isWordCh (c : Char) : Bool :=
  c.isAlpha || c.isDigit || c = '_'

/-- ASCII lower-casing, the effect of `String.prototype.toLowerCase` on the
ASCII corpora handled here. -/
def lowerStr (s : String) : String :=
  ⟨s.data.map Char.toLower⟩

/-- `l.take n = needle`-style test: does `needle` occur at the front of
`hay`? (backing for `String.prototype.startsWith`). -/
def leadsWith : List Char → List Char → Bool
  | [], _ => true
  | _ :: _, [] => false
  | c :: cs, d :: ds => c = d && leadsWith cs ds

/-- Substring containment, the effect of `String.prototype.includes`. -/
def containsSub (hay needle : List Char) : Bool :=
  match hay with
  | [] => needle.isEmpty
  | _ :: rest => leadsWith needle hay || containsSub rest needle

/-- `hay.includes(needle)` on strings. -/
def strContains (hay needle : String) : Bool :=
  containsSub hay.data needle.data

/-- `hay.startsWith(needle)` on strings. -/
def strStarts (hay needle : String) : Bool :=
  leadsWith needle.data hay.data

/-- Whitespace recognised by `String.prototype.trim`. -/
def isJsWs (c : Char) : Bool :=
  c = ' ' || c = '\t' || c = '\n' || c = '\r' || c = '\x0b' || c = '\x0c'

/-- `String.prototype.trim`. -/
def jsTrim (s : String) : String :=
  ⟨((s.data.dropWhile isJsWs).reverse.dropWhile isJsWs).reverse⟩

/-- Split of a character list at every occurrence of `sep`
(`String.prototype.split` with a one-character separator). -/
def splitChList (sep : Char) : List Char → List (List Char)
  | [] => [[]]
  | c :: cs =>
    match splitChList sep cs with
    | [] => if c = sep then [[], []] else [[c]]
    | g :: gs => if c = sep then [] :: g :: gs else (c :: g) :: gs

/-- `s.split(sep)` for a single-character separator. -/
def jsSplit (sep : Char) (s : String) : List String :=
  (splitChList sep s.data).map fun l => ⟨l⟩

/-! ## Data model (`docs.models`) -/

/-- `Type.kind`: `class`, `enum`, `interface` or `struct`. -/
inductive Kind where
  | classKind
  | enumKind
  | interfaceKind
  | structKind
deriving DecidableEq, Repr

/-- `Member.kind`: `method`, `property`, `field`, `constructor` or `event`
(`ctor` stands for `constructor`). -/
inductive MemberKind where
  | method
  | property
  | field
  | ctor
  | event
deriving DecidableEq, Repr

/-- `Member` record of the catalog payload.  An absent (`undefined`)
`access_modifier` or `name` is modelled by the empty string, which is falsy
in JavaScript exactly like `undefined`; the optional `return_type` keeps an
explicit `Option`. -/
structure Member where
  kind : MemberKind
  name : String
  access_modifier : String
  modifiers : List String
  return_type : Option String
  signature : String
  line : Nat
deriving DecidableEq, Repr

/-- `Type` record of the catalog payload. -/
structure Ty where
  name : String
  kind : Kind
  access_modifier : String
  modifiers : List String
  base_types : List String
  file : String
  line : Nat
  member_count : Nat
  members : List Member
deriving DecidableEq, Repr

/-- `OverrideInfo` entry of the override map. -/
structure OverrideInfo where
  overrides : Option String
  overriddenBy : List String
deriving DecidableEq, Repr

/-! ## JavaScript `Map` as an insertion-ordered association list -/

/-- `Map.prototype.get`. -/
def mget (k : String) : List (String × α) → Option α
  | [] => none
  | (k', v) :: rest => if k' = k then some v else mget k rest

/-- `Map.prototype.set`: overwrite in place when the key is present,
append otherwise. -/
def mset (k : String) (v : α) : List (String × α) → List (String × α)
  | [] => [(k, v)]
  | (k', v') :: rest => if k' = k then (k, v) :: rest else (k', v') :: mset k v rest

/-- `Map.prototype.has`. -/
def mhas (k : String) (m : List (String × α)) : Bool :=
  (mget k m).isSome

/-- `Map.prototype.values` (insertion order). -/
def mvalues (m : List (String × α)) : List α :=
  m.map Prod.snd

@[simp] theorem mget_nil (k : String) : mget k ([] : List (String × α)) = none := rfl

@[simp] theorem mget_cons (k k' : String) (v : α) (rest : List (String × α)) :
    mget k ((k', v) :: rest) = if k' = k then some v else mget k rest := rfl

@[simp] theorem mset_nil (k : String) (v : α) : mset k v ([] : List (String × α)) = [(k, v)] := rfl

@[simp] theorem mset_cons (k k' : String) (v v' : α) (rest : List (String × α)) :
    mset k v ((k', v') :: rest) =
      if k' = k then (k, v) :: rest else (k', v') :: mset k v rest := rfl

theorem mget_mset_self (k : String) (v : α) (m : List (String × α)) :
    mget k (mset k v m) = some v := by
  induction m with
  | nil => simp [mget, mset]
  | cons e rest ih =>
    obtain ⟨k', v'⟩ := e
    by_cases h : k' = k <;> simp [mget, mset, h, ih]

theorem mget_mset_ne (k k' : String) (v : α) (m : List (String × α)) (h : k' ≠ k) :
    mget k (mset k' v m) = mget k m := by
  induction m with
  | nil => simp [mget, mset, h]
  | cons e rest ih =>
    obtain ⟨k'', v''⟩ := e
    by_cases h2 : k'' = k'
    · subst h2; simp [mget, mset, h]
    · by_cases h3 : k'' = k
      · subst h3; simp [mget, mset, h2]
      · simp [mget, mset, h2, h3, ih]

/-! ## CommentsService — comment-key derivation -/

/-- `APP_CONSTANTS.DEFAULTS.NAMESPACE`. -/
def defaultNamespace : String := "Verse"

/-- Leading identifier of a parameter type, the source regex
`^([A-Za-z_][A-Za-z0-9_]*)` with the `'object'` fallback when it does not
match. -/
def leadIdentOr (s : String) : String :=
  match s.data with
  | [] => "object"
  | c :: cs => if c.isAlpha || c = '_' then ⟨c :: cs.takeWhile isWordCh⟩ else "object"

/-- First match group of the regex `\(([^)]*)\)`: the characters between the
first `'('` that is followed by some `')'` and the next `')'` after it.
(The regex engine advances past any `'('` with no later `')'`; since a
later `'('` can only see even fewer closing parens, recursing is
equivalent.) -/
def parenGroup : List Char → Option (List Char)
  | [] => none
  | c :: cs =>
    if c = '(' then
      let inner := cs.takeWhile fun d => d ≠ ')'
      if inner.length < cs.length then some inner else parenGroup cs
    else parenGroup cs

/-- `CommentsService.generateTypeCommentKey`: namespace from the second
backslash-separated segment of `type.file` (an empty `file` is falsy and
skips the split), else the default namespace. -/
def generateTypeCommentKey (t : Ty) : String :=
  let ns :=
    if t.file = "" then defaultNamespace
    else
      let pathParts := jsSplit '\\' t.file
      if 1 < pathParts.length then pathParts[1]! else defaultNamespace
  "Assembly-CSharp.Version." ++ ns ++ "." ++ t.name

/-- `CommentsService.generateMemberCommentKey`: for methods/constructors
whose signature has a non-blank parenthesised parameter list, each
parameter is trimmed, its default value (everything from `'='`) removed,
and reduced to its leading identifier; the results are joined with
`", "`. -/
def generateMemberCommentKey (t : Ty) (m : Member) : String :=
  let typeKey := generateTypeCommentKey t
  if m.kind = MemberKind.method || m.kind = MemberKind.ctor then
    match parenGroup m.signature.data with
    | some inner =>
      if jsTrim ⟨inner⟩ ≠ "" then
        let params := (splitChList ',' inner).map fun p =>
          let param := jsTrim ⟨p⟩
          let noDefault := jsTrim ((jsSplit '=' param)[0]!)
          leadIdentOr noDefault
        typeKey ++ "." ++ m.name ++ "(" ++ String.intercalate ", " params ++ ")"
      else typeKey ++ "." ++ m.name
    | none => typeKey ++ "." ++ m.name
  else typeKey ++ "." ++ m.name

/-- The `ThingDef` type record of the comment-key example. -/
def c8Type : Ty :=
  { name := "ThingDef", kind := Kind.classKind, access_modifier := "public",
    modifiers := [], base_types := [], file := "Assembly-CSharp\\Verse\\ThingDef.cs",
    line := 1, member_count := 1, members := [] }

/-- The `Kill(DamageInfo, Hediff)` member record of the comment-key
example. -/
def c8Member : Member :=
  { kind := MemberKind.method, name := "Kill", access_modifier := "public",
    modifiers := [], return_type := some "void",
    signature := "public void Kill(DamageInfo dinfo, Hediff exactCulprit)", line := 5 }

/-- C8: comment-key derivation is the stated deterministic function: the
example type at file `Assembly-CSharp\Verse\ThingDef.cs` yields
`Assembly-CSharp.Version.Verse.ThingDef`, its `Kill(DamageInfo, Hediff)`
method yields the corresponding member key, and in general the namespace
segment of a type key is the second backslash-separated segment of `file`
when there are at least two segments and the fixed default otherwise. -/
theorem c8_comment_key_derivation :
    generateTypeCommentKey c8Type = "Assembly-CSharp.Version.Verse.ThingDef" ∧
    generateMemberCommentKey c8Type c8Member =
      "Assembly-CSharp.Version.Verse.ThingDef.Kill(DamageInfo, Hediff)" ∧
    ∀ t : Ty, generateTypeCommentKey t =
      "Assembly-CSharp.Version." ++
        (if 1 < (jsSplit '\\' t.file).length then (jsSplit '\\' t.file)[1]!
         else defaultNamespace) ++ "." ++ t.name := by
  refine ⟨by rfl, by rfl, ?_⟩
  intro t
  have hsplit : jsSplit '\\' "" = [""] := rfl
  by_cases h : t.file = ""
  · simp [generateTypeCommentKey, h, hsplit]
  · simp [generateTypeCommentKey, h]

/-! ## UtilsService — type-reference extractor -/

/-- The `excludedWords` set of `UtilsService.findTypeReferences`. -/
def excludedWords : List String :=
  ["public", "private", "protected", "internal", "static", "virtual", "abstract",
   "override", "sealed", "readonly", "const", "volatile", "extern", "unsafe",
   "fixed", "stackalloc", "checked", "unchecked",
   "bool", "void", "string", "int", "object", "float", "double", "long", "short",
   "byte", "char", "decimal", "uint", "ulong", "ushort", "sbyte", "nint", "nuint",
   "var", "dynamic", "ref", "out", "in",
   "params", "this", "base", "new", "typeof", "is", "as", "default", "null",
   "true", "false", "if", "else", "switch", "case", "default", "for", "foreach",
   "while", "do", "break", "continue", "return", "throw", "try", "catch",
   "finally", "using", "namespace", "class", "struct", "interface",
   "enum", "delegate", "event", "property", "get", "set", "add", "remove",
   "operator", "implicit", "explicit"]

/-- The access-modifier alternation of the method-name regex in
`UtilsService.findTypeReferences` (no keyword is a prefix of another, so at
most one alternative matches at a given position). -/
def accessKeywords : List String :=
  ["public", "private", "protected", "internal", "static", "virtual",
   "abstract", "override", "readonly"]

/-- One match attempt of `\b([A-Z][a-zA-Z0-9_]*(?:<[^>]+>)?)\b` at the
current position (the boundary before the position is checked by the
caller).  The generic suffix is kept only when a word character directly
follows the closing `'>'` — otherwise the trailing `\b` fails there and
the engine backtracks to the bare identifier run, after which the boundary
always holds because the run is maximal. -/
def tokenAt (cs : List Char) : Option (List Char) :=
  match cs with
  | [] => none
  | c :: rest =>
    if c.isUpper then
      let run := c :: rest.takeWhile isWordCh
      let after := rest.drop (run.length - 1)
      match after with
      | '<' :: gs =>
        let inner := gs.takeWhile fun d => d ≠ '>'
        let wordFollows :=
          match gs.drop (inner.length + 1) with
          | d :: _ => isWordCh d
          | [] => false
        if !inner.isEmpty && decide (inner.length < gs.length) && wordFollows then
          some (run ++ '<' :: (inner ++ ['>']))
        else some run
      | _ => some run
    else none

/-- All matches of the token regex with their start indices, scanning left
to right and resuming after each match like `String.prototype.matchAll`.
`prevW` records whether the previous character is a word character (the
`\b` test); each step consumes at least one character, so any fuel beyond
the input length is enough. -/
def scanTokensAux : Nat → Bool → Nat → List Char → List (Nat × List Char)
  | 0, _, _, _ => []
  | _ + 1, _, _, [] => []
  | fuel + 1, prevW, i, c :: rest =>
    if !prevW then
      match tokenAt (c :: rest) with
      | some tok =>
        (i, tok) ::
          scanTokensAux fuel (isWordCh (tok.getLastD 'x')) (i + tok.length)
            ((c :: rest).drop tok.length)
      | none => scanTokensAux fuel (isWordCh c) (i + 1) rest
    else scanTokensAux fuel (isWordCh c) (i + 1) rest

/-- Parse `\s+(?:\w+)\s+(\w+)\s*\(` (the part of the method-name regex after
the access keyword); returns the captured method name.  The character
classes `\s` and `\w` are disjoint, so the greedy runs need no
backtracking. -/
def parseMethodTail (cs : List Char) : Option (List Char) :=
  let ws1 := cs.takeWhile isJsWs
  if ws1.isEmpty then none else
  let r1 := cs.drop ws1.length
  let w1 := r1.takeWhile isWordCh
  if w1.isEmpty then none else
  let r2 := r1.drop w1.length
  let ws2 := r2.takeWhile isJsWs
  if ws2.isEmpty then none else
  let r3 := r2.drop ws2.length
  let w2 := r3.takeWhile isWordCh
  if w2.isEmpty then none else
  let r4 := r3.drop w2.length
  match r4.dropWhile isJsWs with
  | '(' :: _ => some w2
  | _ => none

/-- First match of
`\b(?:public|private|protected|internal|static|virtual|abstract|override|readonly)\s+(?:\w+)\s+(\w+)\s*\(`:
at every position with a word boundary try the alternation and the tail,
advancing one character on failure. -/
def methodNameAux : Nat → Bool → List Char → Option (List Char)
  | 0, _, _ => none
  | _ + 1, _, [] => none
  | fuel + 1, prevW, c :: rest =>
    let here :=
      if !prevW then
        (accessKeywords.filterMap fun kw =>
          if leadsWith kw.data (c :: rest) then
            parseMethodTail ((c :: rest).drop kw.data.length)
          else none).head?
      else none
    match here with
    | some mn => some mn
    | none => methodNameAux fuel (isWordCh c) rest

/-- `UtilsService.cleanTypeName`: `typeName.split('<')[0]`. -/
def cleanTypeName (tok : List Char) : List Char :=
  tok.takeWhile fun c => c ≠ '<'

/-- `UtilsService.isLikelyTypeName`: the shape test `^[A-Z][a-zA-Z0-9_]*$`
together with `length > 2`. -/
def isLikelyTypeName (s : String) : Bool :=
  (match s.data with
   | c :: cs => c.isUpper && cs.all isWordCh
   | [] => false) && decide (2 < s.data.length)

/-- The method-name-fragment heuristic of `UtilsService.findTypeReferences`
with its 20-character context window (`text.substring(max(0, idx - 20),
min(text.length, idx + cleaned.length + 20))`; truncated `Nat` subtraction
models the `max`). -/
def heuristicSkips (text : List Char) (idx : Nat) (cleaned : List Char) : Bool :=
  if containsSub cleaned "And".data || containsSub cleaned "Or".data ||
      containsSub cleaned "Is".data || containsSub cleaned "Get".data ||
      containsSub cleaned "Set".data then
    let stop := min text.length (idx + cleaned.length + 20)
    let context := (text.take stop).drop (idx - 20)
    containsSub context ['('] && containsSub context [')'] &&
      !containsSub context ("new ".data ++ cleaned) &&
      !containsSub context ("typeof ".data ++ cleaned)
  else false

/-- `UtilsService.findTypeReferences`: scan for capitalised identifier
tokens, drop excluded words, short names, the detected method name of the
signature and heuristic method-name fragments, de-duplicate preserving
first-insertion order (`Set` semantics), and pair each survivor with the
`isLikelyTypeName` guess. -/
def utilsFindTypeReferences (text : String) : List (String × Bool) :=
  let methodName := methodNameAux (text.data.length + 1) false text.data
  let found := scanTokensAux (text.data.length + 1) false 0 text.data
  let uniqueTypes := found.foldl
    (fun (acc : List String) (m : Nat × List Char) =>
      let cleaned := cleanTypeName m.2
      let cs : String := ⟨cleaned⟩
      if excludedWords.contains (lowerStr cs) || cleaned.length < 3 then acc
      else if (match methodName with | some mn => cleaned == mn | none => false) then acc
      else if heuristicSkips text.data m.1 cleaned then acc
      else if acc.contains cs then acc
      else acc ++ [cs])
    []
  uniqueTypes.map fun tn => (tn, isLikelyTypeName tn)

/-- The example signature of the extractor claim. -/
def c9Signature : String := "public void Kill(DamageInfo dinfo, Hediff exactCulprit)"

/-- C9: on `public void Kill(DamageInfo dinfo, Hediff exactCulprit)` the
extractor returns candidates containing `DamageInfo` and `Hediff` and
containing neither `Kill` (the detected method name) nor `void` (a
keyword/built-in never even tokenised). -/
theorem c9_extractor_on_kill_signature :
    ((utilsFindTypeReferences c9Signature).map Prod.fst).contains "DamageInfo" = true ∧
    ((utilsFindTypeReferences c9Signature).map Prod.fst).contains "Hediff" = true ∧
    ((utilsFindTypeReferences c9Signature).map Prod.fst).contains "Kill" = false ∧
    ((utilsFindTypeReferences c9Signature).map Prod.fst).contains "void" = false := by
  refine ⟨?_, ?_, ?_, ?_⟩ <;> rfl

/-! ## Search engine

`DocsService.search` (the chunked implementation working through the
`loadedTypes` namespace map one namespace per `setTimeout` chunk) and
`SearchService.search` (the single synchronous pass) are embedded
separately.  The asynchronous yielding only schedules the per-chunk work;
the accumulated `results` array is exactly the sequential concatenation of
the per-chunk scans, which is how the chunked run is modelled.  The
session-long query cache both implementations consult is modelled
explicitly as a map threaded through `*SearchCached`; the cacheless
functions below describe a run on a cache miss. -/

/-- `matchType` of a search result. -/
inductive MatchTy where
  | name
  | signature
  | file
deriving DecidableEq, Repr

/-- `SearchResult`. -/
structure SearchResult where
  type : Ty
  namespaceName : String
  category : Kind
  matchType : MatchTy
  relevance : Nat
deriving DecidableEq, Repr

/-- `SEARCH_RESULT_LIMIT`. -/
def SEARCH_RESULT_LIMIT : Nat := 100

/-- Per-type scoring loop of `DocsService.search` (docs.service.ts): name
(+10, +5 more on a prefix match), file (+3, matchType `file`), access
modifier (+3), each modifier (+3), and for the first ten members signature
(+2), name (+3), return type (+2) and access modifier (+2), each setting
matchType `signature`; `member.name`, `member.return_type`,
`member.access_modifier` and `type.access_modifier` are truthiness-tested
first (empty/absent strings are falsy). -/
def docsScoreType (lowerQuery : String) (t : Ty) : Nat × MatchTy :=
  let r0 : Nat := 0
  let mt0 : MatchTy := MatchTy.name
  let r1 := if strContains (lowerStr t.name) lowerQuery then
      r0 + 10 + (if strStarts (lowerStr t.name) lowerQuery then 5 else 0)
    else r0
  let p2 := if strContains (lowerStr t.file) lowerQuery then
      (r1 + 3, MatchTy.file) else (r1, mt0)
  let r3 := if t.access_modifier ≠ "" ∧ strContains (lowerStr t.access_modifier) lowerQuery then
      p2.1 + 3 else p2.1
  let r4 := t.modifiers.foldl
    (fun r m => if strContains (lowerStr m) lowerQuery then r + 3 else r) r3
  let p5 := (t.members.take 10).foldl
    (fun (p : Nat × MatchTy) m =>
      let q1 := if strContains (lowerStr m.signature) lowerQuery then
          (p.1 + 2, MatchTy.signature) else p
      let q2 := if m.name ≠ "" ∧ strContains (lowerStr m.name) lowerQuery then
          (q1.1 + 3, MatchTy.signature) else q1
      let q3 := match m.return_type with
        | some rt =>
          if rt ≠ "" ∧ strContains (lowerStr rt) lowerQuery then
            (q2.1 + 2, MatchTy.signature) else q2
        | none => q2
      if m.access_modifier ≠ "" ∧ strContains (lowerStr m.access_modifier) lowerQuery then
        (q3.1 + 2, MatchTy.signature) else q3)
    (r4, p2.2)
  p5

/-- Per-type scoring loop of `SearchService.search` (README), textually the
same computation as `docsScoreType`. -/
def svcScoreType (lowerQuery : String) (t : Ty) : Nat × MatchTy :=
  let r0 : Nat := 0
  let mt0 : MatchTy := MatchTy.name
  let r1 := if strContains (lowerStr t.name) lowerQuery then
      r0 + 10 + (if strStarts (lowerStr t.name) lowerQuery then 5 else 0)
    else r0
  let p2 := if strContains (lowerStr t.file) lowerQuery then
      (r1 + 3, MatchTy.file) else (r1, mt0)
  let r3 := if t.access_modifier ≠ "" ∧ strContains (lowerStr t.access_modifier) lowerQuery then
      p2.1 + 3 else p2.1
  let r4 := t.modifiers.foldl
    (fun r m => if strContains (lowerStr m) lowerQuery then r + 3 else r) r3
  let p5 := (t.members.take 10).foldl
    (fun (p : Nat × MatchTy) m =>
      let q1 := if strContains (lowerStr m.signature) lowerQuery then
          (p.1 + 2, MatchTy.signature) else p
      let q2 := if m.name ≠ "" ∧ strContains (lowerStr m.name) lowerQuery then
          (q1.1 + 3, MatchTy.signature) else q1
      let q3 := match m.return_type with
        | some rt =>
          if rt ≠ "" ∧ strContains (lowerStr rt) lowerQuery then
            (q2.1 + 2, MatchTy.signature) else q2
        | none => q2
      if m.access_modifier ≠ "" ∧ strContains (lowerStr m.access_modifier) lowerQuery then
        (q3.1 + 2, MatchTy.signature) else q3)
    (r4, p2.2)
  p5

/-- Scan step shared by both search implementations: keep a type only when
its accumulated relevance is positive. -/
def docsScanType (lowerQuery ns : String) (t : Ty) : Option SearchResult :=
  let p := docsScoreType lowerQuery t
  if 0 < p.1 then
    some { type := t, namespaceName := ns, category := t.kind, matchType := p.2, relevance := p.1 }
  else none

/-- `SearchService` scan step (namespace is the fixed
`APP_CONSTANTS.DEFAULTS.GLOBAL_NAMESPACE`). -/
def svcScanType (lowerQuery : String) (t : Ty) : Option SearchResult :=
  let p := svcScoreType lowerQuery t
  if 0 < p.1 then
    some { type := t, namespaceName := "<global>", category := t.kind, matchType := p.2, relevance := p.1 }
  else none

/-- `results.sort((a, b) => b.relevance - a.relevance)`: JavaScript's sort
is stable (ES2019), and a stable descending-by-relevance arrangement is
unique, so it is modelled by stable insertion: each element is placed
before the first strictly-less-relevant element of the already sorted
tail. -/
def insRes (x : SearchResult) : List SearchResult → List SearchResult
  | [] => [x]
  | y :: ys => if y.relevance ≤ x.relevance then x :: y :: ys else y :: insRes x ys

/-- Stable descending sort by relevance. -/
def sortByRelevance : List SearchResult → List SearchResult
  | [] => []
  | x :: l => insRes x (sortByRelevance l)

/-- `DocsService.search` on a cache miss: empty/whitespace query short
circuit, per-namespace chunked scan, stable sort, truncation. -/
def docsSearch (query : String) (loadedTypes : List (String × List Ty)) : List SearchResult :=
  if jsTrim query = "" then []
  else
    let lowerQuery := lowerStr query
    let results := loadedTypes.flatMap fun nt => nt.2.filterMap (docsScanType lowerQuery nt.1)
    (sortByRelevance results).take SEARCH_RESULT_LIMIT

/-- `SearchService.search` on a cache miss: the same pipeline in one
synchronous pass over `allTypes`. -/
def svcSearch (query : String) (allTypes : List Ty) : List SearchResult :=
  if jsTrim query = "" then []
  else
    let lowerQuery := lowerStr query
    let results := allTypes.filterMap (svcScanType lowerQuery)
    (sortByRelevance results).take SEARCH_RESULT_LIMIT

/-- `DocsService.search` with its cache: result list and updated cache. -/
def docsSearchCached (query : String) (cache : List (String × List SearchResult))
    (loadedTypes : List (String × List Ty)) :
    List SearchResult × List (String × List SearchResult) :=
  if jsTrim query = "" then ([], cache)
  else
    let cacheKey := lowerStr query
    match mget cacheKey cache with
    | some cached => (cached, cache)
    | none =>
      let res := docsSearch query loadedTypes
      (res, mset cacheKey res cache)

/-- `SearchService.search` with its cache. -/
def svcSearchCached (query : String) (cache : List (String × List SearchResult))
    (allTypes : List Ty) :
    List SearchResult × List (String × List SearchResult) :=
  if jsTrim query = "" then ([], cache)
  else
    let cacheKey := lowerStr query
    match mget cacheKey cache with
    | some cached => (cached, cache)
    | none =>
      let res := svcSearch query allTypes
      (res, mset cacheKey res cache)

/-- Projection of a search result to the data the chunking-equivalence
claim compares: the type, its category, the match type and the
relevance. -/
def resultSig (r : SearchResult) : Ty × Kind × MatchTy × Nat :=
  (r.type, r.category, r.matchType, r.relevance)

/-- Relation between results of the two implementations: all compared
components agree. -/
def SigEq (a b : SearchResult) : Prop := resultSig a = resultSig b

theorem SigEq.relevance_eq {a b : SearchResult} (h : SigEq a b) :
    a.relevance = b.relevance := by
  simp only [SigEq, resultSig, Prod.mk.injEq] at h
  exact h.2.2.2

theorem SigEq.map_eq {l1 l2 : List SearchResult} (h : List.Forall₂ SigEq l1 l2) :
    l1.map resultSig = l2.map resultSig := by
  induction h with
  | nil => rfl
  | @cons a b l1' l2' hab htail ih =>
    have hab' : resultSig a = resultSig b := hab
    simp [hab', ih]

/-- The two per-type scoring loops are the same function. -/
theorem docsScoreType_eq_svcScoreType : @docsScoreType = @svcScoreType := rfl

theorem scan_forall2 (lq ns : String) (ts : List Ty) :
    List.Forall₂ SigEq (ts.filterMap (docsScanType lq ns)) (ts.filterMap (svcScanType lq)) := by
  induction ts with
  | nil => simp
  | cons t ts ih =>
    have hsc : docsScoreType lq t = svcScoreType lq t := rfl
    simp only [List.filterMap_cons, docsScanType, svcScanType, hsc]
    by_cases h : 0 < (svcScoreType lq t).1
    · simp only [h, if_pos]
      exact List.Forall₂.cons (by simp [SigEq, resultSig]) ih
    · simp only [h, if_neg, if_false]
      exact ih

theorem forall2_append {R : SearchResult → SearchResult → Prop}
    {l1 l2 l3 l4 : List SearchResult}
    (h12 : List.Forall₂ R l1 l2) (h34 : List.Forall₂ R l3 l4) :
    List.Forall₂ R (l1 ++ l3) (l2 ++ l4) := by
  induction h12 with
  | nil => simpa using h34
  | cons hab _ ih => exact List.Forall₂.cons hab ih

theorem insRes_forall2 {x y : SearchResult} {l1 l2 : List SearchResult}
    (hxy : SigEq x y) (h : List.Forall₂ SigEq l1 l2) :
    List.Forall₂ SigEq (insRes x l1) (insRes y l2) := by
  induction h with
  | nil => exact List.Forall₂.cons hxy List.Forall₂.nil
  | cons hab htail ih =>
    rename_i a b l1' l2'
    have hr : a.relevance = b.relevance := hab.relevance_eq
    have hx : x.relevance = y.relevance := hxy.relevance_eq
    by_cases hc : a.relevance ≤ x.relevance
    · have hc' : b.relevance ≤ y.relevance := by omega
      simpa [insRes, hc, hc'] using
        List.Forall₂.cons hxy (List.Forall₂.cons hab htail)
    · have hc' : ¬ b.relevance ≤ y.relevance := by omega
      simpa [insRes, hc, hc'] using List.Forall₂.cons hab ih

theorem sortByRelevance_forall2 {l1 l2 : List SearchResult}
    (h : List.Forall₂ SigEq l1 l2) :
    List.Forall₂ SigEq (sortByRelevance l1) (sortByRelevance l2) := by
  induction h with
  | nil => exact List.Forall₂.nil
  | cons hab _ ih => exact insRes_forall2 hab ih

theorem take_forall2 {R : SearchResult → SearchResult → Prop} (n : Nat)
    {l1 l2 : List SearchResult} (h : List.Forall₂ R l1 l2) :
    List.Forall₂ R (l1.take n) (l2.take n) := by
  induction h generalizing n with
  | nil => simp
  | cons hab _ ih =>
    cases n with
    | zero => simp
    | succ n => exact List.Forall₂.cons hab (ih n)

/-- C5: the chunked `DocsService.search` and the single-pass
`SearchService.search` agree on every corpus and query — same types, same
relevance, same matchType, same order and the same 100-result ceiling,
however the corpus is split into namespace chunks. -/
theorem c5_chunked_search_equals_single_pass (query : String)
    (loadedTypes : List (String × List Ty)) :
    (docsSearch query loadedTypes).map resultSig =
      (svcSearch query (loadedTypes.flatMap Prod.snd)).map resultSig := by
  unfold docsSearch svcSearch
  by_cases hq : jsTrim query = ""
  · simp [hq]
  · simp only [hq, if_false, if_neg]
    apply SigEq.map_eq
    apply take_forall2
    apply sortByRelevance_forall2
    induction loadedTypes with
    | nil => simp
    | cons nt nss ih =>
      simp only [List.flatMap_cons, List.filterMap_append]
      exact forall2_append (scan_forall2 (lowerStr query) nt.1 nt.2) ih

/-- C7: an empty or all-whitespace query returns `[]` from both search
implementations immediately — the result is independent of the corpus
(no scan) and the cache is returned unchanged (no cache write). -/
theorem c7_blank_query_no_scan_no_cache_write (query : String)
    (h : ∀ c ∈ query.data, isJsWs c = true)
    (cache : List (String × List SearchResult))
    (loadedTypes : List (String × List Ty)) (allTypes : List Ty) :
    docsSearchCached query cache loadedTypes = ([], cache) ∧
    svcSearchCached query cache allTypes = ([], cache) := by
  have htrim : jsTrim query = "" := by
    have hdrop : query.data.dropWhile isJsWs = [] := by
      rw [List.dropWhile_eq_nil_iff]
      exact h
    simp [jsTrim, hdrop]
  constructor <;> simp [docsSearchCached, svcSearchCached, htrim]

/-- Witness for C7 at the whitespace query `"  "`. -/
theorem c7_blank_query_witness :
    (∀ c ∈ ("  " : String).data, isJsWs c = true) ∧
    docsSearchCached "  " [] [] = ([], []) ∧
    svcSearchCached "  " [] [] = ([], []) :=
  ⟨by decide, c7_blank_query_no_scan_no_cache_write "  " (by decide) [] [] []⟩

/-- The `PawnGroup` record of the search-ranking counterexample. -/
def c6PawnGroup : Ty :=
  { name := "PawnGroup", kind := Kind.classKind, access_modifier := "public",
    modifiers := [], base_types := [], file := "A.cs", line := 1,
    member_count := 0, members := [] }

/-- The `Pawn` record of the search-ranking counterexample. -/
def c6Pawn : Ty :=
  { name := "Pawn", kind := Kind.classKind, access_modifier := "public",
    modifiers := [], base_types := [], file := "A.cs", line := 2,
    member_count := 0, members := [] }

/-- C6 counterexample: the corpus `[PawnGroup, Pawn]` contains a type named
exactly `Pawn` and a type named `PawnGroup`, yet the query `"Pawn"` ranks
`PawnGroup` first — `"pawngroup".startsWith("pawn")` also earns the +5
prefix bonus, both types score 15, and the stable sort keeps corpus
order — refuting "Pawn ranks strictly above PawnGroup". -/
theorem c6_counterexample :
    ((svcSearch "Pawn" [c6PawnGroup, c6Pawn]).map fun r => r.type.name) =
      ["PawnGroup", "Pawn"] ∧
    ((svcSearch "Pawn" [c6PawnGroup, c6Pawn]).map fun r => r.relevance) = [15, 15] := by
  exact ⟨rfl, rfl⟩

theorem modFold_le (lq : String) (ms : List String) (r : Nat) :
    r ≤ ms.foldl (fun r m => if strContains (lowerStr m) lq then r + 3 else r) r := by
  induction ms generalizing r with
  | nil => simp
  | cons m ms ih =>
    simp only [List.foldl_cons]
    refine le_trans ?_ (ih _)
    split <;> omega

theorem memFold_le (lq : String) (ms : List Member) (p : Nat × MatchTy) :
    p.1 ≤ (ms.foldl
      (fun (p : Nat × MatchTy) m =>
        let q1 := if strContains (lowerStr m.signature) lq then
            (p.1 + 2, MatchTy.signature) else p
        let q2 := if m.name ≠ "" ∧ strContains (lowerStr m.name) lq then
            (q1.1 + 3, MatchTy.signature) else q1
        let q3 := match m.return_type with
          | some rt =>
            if rt ≠ "" ∧ strContains (lowerStr rt) lq then
              (q2.1 + 2, MatchTy.signature) else q2
          | none => q2
        if m.access_modifier ≠ "" ∧ strContains (lowerStr m.access_modifier) lq then
          (q3.1 + 2, MatchTy.signature) else q3) p).1 := by
  induction ms generalizing p with
  | nil => simp
  | cons m ms ih =>
    simp only [List.foldl_cons]
    refine le_trans ?_ (ih _)
    dsimp only
    cases hrt : m.return_type <;> simp only [hrt] <;> split_ifs <;> simp <;> omega

/-- C6 amended: for the query `"Pawn"`, a type named exactly `Pawn` and a
type named `PawnGroup` that agree on every other scored field receive
exactly the same score (the prefix bonus applies to `PawnGroup` too), and
that score is at least the full 15-point name score, so both appear in the
results; the exact-named type is not placed above the prefix-extending one
by score — their relative order is left to the stable sort's corpus
order. -/
theorem c6_amended_equal_relevance (p pg : Ty)
    (hp : p.name = "Pawn") (hpg : pg.name = "PawnGroup")
    (hf : pg.file = p.file) (ha : pg.access_modifier = p.access_modifier)
    (hm : pg.modifiers = p.modifiers) (hmem : pg.members = p.members) :
    svcScoreType (lowerStr "Pawn") p = svcScoreType (lowerStr "Pawn") pg ∧
    15 ≤ (svcScoreType (lowerStr "Pawn") p).1 := by
  have e1 : strContains (lowerStr "Pawn") (lowerStr "Pawn") = true := rfl
  have e2 : strStarts (lowerStr "Pawn") (lowerStr "Pawn") = true := rfl
  have e3 : strContains (lowerStr "PawnGroup") (lowerStr "Pawn") = true := rfl
  have e4 : strStarts (lowerStr "PawnGroup") (lowerStr "Pawn") = true := rfl
  constructor
  · unfold svcScoreType
    simp only [hp, hpg, hf, ha, hm, hmem, e1, e2, e3, e4]
  · unfold svcScoreType
    simp only [hp, e1, e2, if_true]
    refine le_trans ?_ (memFold_le _ _ _)
    refine le_trans ?_ (modFold_le _ _ _)
    split_ifs <;> simp

/-- Witness for the amended C6 theorem at a concrete `Pawn`/`PawnGroup`
pair. -/
theorem c6_amended_witness :
    svcScoreType (lowerStr "Pawn") c6Pawn = svcScoreType (lowerStr "Pawn") c6PawnGroup ∧
    15 ≤ (svcScoreType (lowerStr "Pawn") c6Pawn).1 :=
  c6_amended_equal_relevance c6Pawn c6PawnGroup rfl rfl rfl rfl rfl rfl

/-! ## Catalog index

The repository carries two variants of `DocsService`.  The monolithic
`docs.service.ts` builds overrides in two passes through the recursive
depth-first `findOverriddenMethod`; the refactored service (delegating to
`SearchService`/`UtilsService` etc.) additionally builds a `derivedTypes`
map and uses a one-pass, direct-bases-only override builder that requires
`virtual`/`abstract` on the base member.  Both are embedded:
`categorizeDataM` for the monolithic variant, `categorizeDataR` for the
refactored one. -/

/-- `type_counts` of the main payload. -/
structure TypeCounts where
  classCount : Nat
  structCount : Nat
  interfaceCount : Nat
  enumCount : Nat
deriving DecidableEq, Repr

/-- `DocsIndex`, the main catalog payload. -/
structure DocsIndex where
  generated_at : String
  total_types : Nat
  total_members : Nat
  type_counts : TypeCounts
  types : List Ty
deriving DecidableEq, Repr

/-- The metadata block copied into `CategorizedDocs`. -/
structure CatMeta where
  generated_at : String
  total_types : Nat
  total_members : Nat
  type_counts : TypeCounts
deriving DecidableEq, Repr

/-- `CategorizedDocs` of the monolithic docs.service.ts (no
`derivedTypes`). -/
structure CatM where
  metadata : CatMeta
  classes : List (String × Ty)
  enums : List (String × Ty)
  interfaces : List (String × Ty)
  structs : List (String × Ty)
  typeIndex : List (String × Ty)
  memberIndex : List (String × List Member)
  inheritance : List (String × List String)
  references : List (String × List String)
  overrides : List (String × OverrideInfo)
deriving DecidableEq, Repr

/-- `CategorizedDocs` of the refactored service (with `derivedTypes`). -/
structure CatR where
  metadata : CatMeta
  classes : List (String × Ty)
  enums : List (String × Ty)
  interfaces : List (String × Ty)
  structs : List (String × Ty)
  typeIndex : List (String × Ty)
  memberIndex : List (String × List Member)
  inheritance : List (String × List String)
  derivedTypes : List (String × List String)
  references : List (String × List String)
  overrides : List (String × OverrideInfo)
deriving DecidableEq, Repr

/-- `DocsService.findTypeReferences` of the monolithic docs.service.ts:
the bare token scan (same regex as the UtilsService extractor, none of its
exclusions), de-duplicated on the raw token, then stripped of generic
suffixes.  Only the names are used by the cross-reference build, so the
`exists` flag is not modelled here. -/
def docsFindTypeRefNames (text : String) : List String :=
  let found := scanTokensAux (text.data.length + 1) false 0 text.data
  let uniq := found.foldl
    (fun (acc : List (List Char)) m => if acc.contains m.2 then acc else acc ++ [m.2]) []
  uniq.map fun tok => (⟨cleanTypeName tok⟩ : String)

/-- `references.get(name).add(typeName)` with the create-if-absent step
(`Set` semantics: insertion order, duplicates ignored). -/
def addRef (refName tyName : String) (refs : List (String × List String)) :
    List (String × List String) :=
  match mget refName refs with
  | some s => mset refName (if s.contains tyName then s else s ++ [tyName]) refs
  | none => mset refName [tyName] refs

/-- `DocsService.buildCrossReferences` (monolithic variant). -/
def buildCrossReferencesM (t : Ty) (refs : List (String × List String)) :
    List (String × List String) :=
  t.members.foldl
    (fun refs m => (docsFindTypeRefNames m.signature).foldl
      (fun refs refName => addRef refName t.name refs) refs)
    refs

/-- `buildCrossReferences` of the refactored service, which delegates to
`UtilsService.findTypeReferences`. -/
def buildCrossReferencesR (t : Ty) (refs : List (String × List String)) :
    List (String × List String) :=
  t.members.foldl
    (fun refs m => (utilsFindTypeReferences m.signature).foldl
      (fun refs r => addRef r.1 t.name refs) refs)
    refs

/-- One iteration of the per-type loop of `categorizeData`
(docs.service.ts): category map by kind, `typeIndex`, `memberIndex`,
`inheritance` only when `base_types` is non-empty, cross references. -/
def catMStep (c : CatM) (t : Ty) : CatM :=
  let c := match t.kind with
    | Kind.classKind => { c with classes := mset t.name t c.classes }
    | Kind.enumKind => { c with enums := mset t.name t c.enums }
    | Kind.interfaceKind => { c with interfaces := mset t.name t c.interfaces }
    | Kind.structKind => { c with structs := mset t.name t c.structs }
  let c := { c with typeIndex := mset t.name t c.typeIndex }
  let c := { c with memberIndex := mset t.name t.members c.memberIndex }
  let c := if t.base_types ≠ [] then
      { c with inheritance := mset t.name t.base_types c.inheritance }
    else c
  { c with references := buildCrossReferencesM t c.references }

/-- Same per-type loop in the refactored service (the only difference is
the delegated reference extractor). -/
def catRStep (c : CatR) (t : Ty) : CatR :=
  let c := match t.kind with
    | Kind.classKind => { c with classes := mset t.name t c.classes }
    | Kind.enumKind => { c with enums := mset t.name t c.enums }
    | Kind.interfaceKind => { c with interfaces := mset t.name t c.interfaces }
    | Kind.structKind => { c with structs := mset t.name t c.structs }
  let c := { c with typeIndex := mset t.name t c.typeIndex }
  let c := { c with memberIndex := mset t.name t.members c.memberIndex }
  let c := if t.base_types ≠ [] then
      { c with inheritance := mset t.name t.base_types c.inheritance }
    else c
  { c with references := buildCrossReferencesR t c.references }

/-- Member compatibility test of `findOverriddenMethod`:
`m.name === member.name && (m.kind === member.kind || (m.kind === 'method'
&& member.kind === 'method'))`. -/
def overrideCandidate (m bm : Member) : Bool :=
  bm.name == m.name &&
    (bm.kind == m.kind || (bm.kind == MemberKind.method && m.kind == MemberKind.method))

/-- `DocsService.findOverriddenMethod` (docs.service.ts): depth-first walk
of the declared base chain — check each direct base's members for the
first same-named compatible member (no virtual/abstract requirement in
this variant), recursing into that base's own bases before moving to the
next direct base, short-circuiting at the first match; a base missing from
`typeIndex` ends that branch silently.  The walk is driven by the list of
base names still to try.  `fuel` bounds the number of steps: the source
recursion terminates exactly when the reachable base chains are acyclic,
and then any sufficiently large fuel returns the source's answer. -/
def findOverriddenMethod (typeIndex : List (String × Ty)) (m : Member) :
    Nat → List String → Option String
  | 0, _ => none
  | _ + 1, [] => none
  | fuel + 1, baseName :: rest =>
    match mget baseName typeIndex with
    | none => findOverriddenMethod typeIndex m fuel rest
    | some baseType =>
      match baseType.members.find? (overrideCandidate m) with
      | some baseMethod => some (baseType.name ++ "." ++ baseMethod.name)
      | none =>
        match (if baseType.base_types.isEmpty then none
               else findOverriddenMethod typeIndex m fuel baseType.base_types) with
        | some r => some r
        | none => findOverriddenMethod typeIndex m fuel rest

/-- Fuel for the override walk, larger than the number of walk steps of
any terminating (acyclic) corpus. -/
def overrideWalkFuel (d : DocsIndex) : Nat :=
  2 ^ (d.types.foldl (fun n t => n + 1 + t.base_types.length) 1)

/-- The write one member contributes in pass 1 of
`buildOverrideRelationships` (docs.service.ts): for a member whose
modifiers include `override`, the walk result keyed `Type.Member` (if
any). -/
def pass1Act (typeIndex : List (String × Ty)) (fuel : Nat) (t : Ty) (m : Member) :
    Option (String × OverrideInfo) :=
  if m.modifiers.contains "override" then
    match findOverriddenMethod typeIndex m fuel t.base_types with
    | some target => some (t.name ++ "." ++ m.name, ⟨some target, []⟩)
    | none => none
  else none

/-- Pass 1 of `DocsService.buildOverrideRelationships` (docs.service.ts):
for every indexed type with declared bases and every member whose
modifiers include `override`, record the walk result under the
`Type.Member` key when the walk finds a base member. -/
def buildOverridesPass1 (typeIndex : List (String × Ty)) (fuel : Nat) :
    List (String × OverrideInfo) :=
  (mvalues typeIndex).foldl
    (fun acc t =>
      if t.base_types.isEmpty then acc
      else
        t.members.foldl
          (fun acc m =>
            match pass1Act typeIndex fuel t m with
            | some e => mset e.1 e.2 acc
            | none => acc)
          acc)
    []

/-- The create-stub-then-push step of pass 2. -/
def pushOverriddenBy (memberKey baseKey : String)
    (m : List (String × OverrideInfo)) : List (String × OverrideInfo) :=
  match mget baseKey m with
  | some i => mset baseKey { i with overriddenBy := i.overriddenBy ++ [memberKey] } m
  | none => mset baseKey { overrides := none, overriddenBy := [memberKey] } m

/-- Pass 2 of `buildOverrideRelationships` (docs.service.ts): reverse
edges.  The source iterates the live map while inserting stubs; JavaScript
map iteration also visits entries added during iteration, but every such
entry is a stub with `overrides = undefined` whose visit is a no-op, so
folding over the pass‑1 entry list is equivalent. -/
def pass2Step (m : List (String × OverrideInfo)) (e : String × OverrideInfo) :
    List (String × OverrideInfo) :=
  match e.2.overrides with
  | some baseKey => pushOverriddenBy e.1 baseKey m
  | none => m

/-- The full second pass. -/
def buildOverridesPass2 (m0 : List (String × OverrideInfo)) :
    List (String × OverrideInfo) :=
  m0.foldl pass2Step m0

/-- The fresh `CategorizedDocs` value (monolithic variant): metadata copied
from the payload, every map empty. -/
def catM0 (d : DocsIndex) : CatM :=
  { metadata := { generated_at := d.generated_at, total_types := d.total_types,
                  total_members := d.total_members, type_counts := d.type_counts },
    classes := [], enums := [], interfaces := [], structs := [],
    typeIndex := [], memberIndex := [], inheritance := [],
    references := [], overrides := [] }

/-- `DocsService.categorizeData` of the monolithic docs.service.ts. -/
def categorizeDataM (d : DocsIndex) : CatM :=
  let c := d.types.foldl catMStep (catM0 d)
  { c with overrides :=
      buildOverridesPass2 (buildOverridesPass1 c.typeIndex (overrideWalkFuel d)) }

/-- `derivedTypes.get(base).push(name)` with create-if-absent. -/
def derivedAdd (baseName tyName : String) (m : List (String × List String)) :
    List (String × List String) :=
  match mget baseName m with
  | some l => mset baseName (l ++ [tyName]) m
  | none => mset baseName [tyName] m

/-- Per-type step of `buildInheritanceRelationships` (refactored variant):
push the type's name into each declared base's derived list. -/
def derivTypeStep (acc : List (String × List String)) (t : Ty) :
    List (String × List String) :=
  if t.base_types ≠ [] then
    t.base_types.foldl (fun acc b => derivedAdd b t.name acc) acc
  else acc

/-- `DocsService.buildInheritanceRelationships` (refactored variant): for
every indexed type with declared bases, push its name into every base's
derived list. -/
def buildInheritanceRelationshipsR (typeIndex : List (String × Ty)) :
    List (String × List String) :=
  (mvalues typeIndex).foldl derivTypeStep []

/-- `buildOverrideRelationships` of the refactored variant: one
incremental pass — for every indexed type, for every `method` member with
the `override` modifier, every DIRECT base (from the `inheritance` map)
whose members contain a same-named `virtual`/`abstract` method contributes
an edge; a later base overwrites the member's entry, and the reverse edge
is pushed immediately. -/
def buildOverridesR (typeIndex : List (String × Ty))
    (inheritance : List (String × List String)) : List (String × OverrideInfo) :=
  (mvalues typeIndex).foldl
    (fun acc t =>
      t.members.foldl
        (fun acc m =>
          if m.kind == MemberKind.method && m.modifiers.contains "override" then
            ((mget t.name inheritance).getD []).foldl
              (fun acc baseTypeName =>
                match mget baseTypeName typeIndex with
                | none => acc
                | some baseType =>
                  match baseType.members.find? (fun bm =>
                    bm.kind == MemberKind.method && bm.name == m.name &&
                      (bm.modifiers.contains "virtual" ||
                       bm.modifiers.contains "abstract")) with
                  | none => acc
                  | some baseMethod =>
                    let memberKey := t.name ++ "." ++ m.name
                    let baseMemberKey := baseTypeName ++ "." ++ baseMethod.name
                    let acc := mset memberKey ⟨some baseMemberKey, []⟩ acc
                    let acc := if mhas baseMemberKey acc then acc
                               else mset baseMemberKey ⟨none, []⟩ acc
                    match mget baseMemberKey acc with
                    | some i =>
                      mset baseMemberKey
                        { i with overriddenBy := i.overriddenBy ++ [memberKey] } acc
                    | none => acc)
              acc
          else acc)
        acc)
    []

/-- The fresh `CategorizedDocs` value (refactored variant). -/
def catR0 (d : DocsIndex) : CatR :=
  { metadata := { generated_at := d.generated_at, total_types := d.total_types,
                  total_members := d.total_members, type_counts := d.type_counts },
    classes := [], enums := [], interfaces := [], structs := [],
    typeIndex := [], memberIndex := [], inheritance := [],
    derivedTypes := [], references := [], overrides := [] }

/-- `DocsService.categorizeData` of the refactored service. -/
def categorizeDataR (d : DocsIndex) : CatR :=
  let c := d.types.foldl catRStep (catR0 d)
  let c := { c with derivedTypes := buildInheritanceRelationshipsR c.typeIndex }
  { c with overrides := buildOverridesR c.typeIndex c.inheritance }

/-! ## Query operations and collaborator services -/

/-- Result shape of `DocsService.getType`. -/
structure TypeHit where
  type : Ty
  namespaceName : String
  category : Kind
deriving DecidableEq, Repr

/-- The legacy fallback loop of `getType` over the `loadedTypes`
namespace map. -/
def legacyFind : List (String × List Ty) → String → Option TypeHit
  | [], _ => none
  | (ns, ts) :: rest, n =>
    match ts.find? (fun t => t.name == n) with
    | some t => some ⟨t, ns, t.kind⟩
    | none => legacyFind rest n

/-- `DocsService.getType`: categorized index first, legacy namespace scan
otherwise; `null` when nothing is loaded. -/
def getType (categorizedData : Option CatR) (loadedTypes : List (String × List Ty))
    (typeName : String) : Option TypeHit :=
  match categorizedData with
  | some d =>
    match mget typeName d.typeIndex with
    | some t => some ⟨t, "<global>", t.kind⟩
    | none => legacyFind loadedTypes typeName
  | none => legacyFind loadedTypes typeName

/-- `DocsService.getInheritance`. -/
def getInheritance (data : Option CatR) (typeName : String) : List String :=
  match data with
  | none => []
  | some d => (mget typeName d.inheritance).getD []

/-- `DocsService.getDerivedTypes` (refactored variant). -/
def getDerivedTypes (data : Option CatR) (typeName : String) : List String :=
  match data with
  | none => []
  | some d => (mget typeName d.derivedTypes).getD []

/-- `DocsService.getOverrideInfo`. -/
def getOverrideInfo (data : Option CatR) (typeName memberName : String) :
    Option OverrideInfo :=
  match data with
  | none => none
  | some d => mget (typeName ++ "." ++ memberName) d.overrides

/-- Category-map lookup by the pluralised key
(`category + (category === 'class' ? 'es' : 's')`). -/
def categoryMapOf (c : CatR) (key : String) : Option (List (String × Ty)) :=
  if key = "classes" then some c.classes
  else if key = "enums" then some c.enums
  else if key = "interfaces" then some c.interfaces
  else if key = "structs" then some c.structs
  else none

/-- The pluralised category key. -/
def pluralCategoryKey (category : String) : String :=
  category ++ (if category = "class" then "es" else "s")

/-- `PAGE_SIZE`. -/
def PAGE_SIZE : Nat := 50

/-- `DocsService.getTypesByCategory` (refactored variant): one page of the
category's values. -/
def getTypesByCategory (data : Option CatR) (category : String) (page : Nat) :
    List Ty :=
  match data with
  | none => []
  | some d =>
    match categoryMapOf d (pluralCategoryKey category) with
    | none => []
    | some m => ((mvalues m).drop (page * PAGE_SIZE)).take PAGE_SIZE

/-- `DocsService.getAllTypesByCategory` (refactored variant). -/
def getAllTypesByCategory (data : Option CatR) (category : String) : List Ty :=
  match data with
  | none => []
  | some d =>
    match categoryMapOf d (pluralCategoryKey category) with
    | none => []
    | some m => mvalues m

/-- `DocsService.getCategoryTypeCount` (refactored variant). -/
def getCategoryTypeCount (data : Option CatR) (category : String) : Nat :=
  match data with
  | none => 0
  | some d =>
    match categoryMapOf d (pluralCategoryKey category) with
    | none => 0
    | some m => m.length

/-- One XML usage link. -/
structure XmlClassLink where
  csharp_class : String
  xml_file : String
  xml_value : String
deriving DecidableEq, Repr

/-- The XML usage payload. -/
structure XmlClassLinksIndex where
  generated_at : String
  tag_groups : List (String × List XmlClassLink)
deriving DecidableEq, Repr

/-- `XmlTranslationService.getXmlUsageForClass`: scan every tag group in
order, collecting the links whose `csharp_class` matches. -/
def getXmlUsageForClass (xmlData : Option XmlClassLinksIndex) (className : String) :
    List XmlClassLink :=
  match xmlData with
  | none => []
  | some d => d.tag_groups.flatMap fun g => g.2.filter fun l => l.csharp_class == className

/-- One translation usage entry. -/
structure TranslationUsage where
  csharp_file : String
  xml_files : List String
deriving DecidableEq, Repr

/-- The translation links payload. -/
structure TranslationLinksIndex where
  generated_at : String
  translation_links : List (String × List TranslationUsage)
deriving DecidableEq, Repr

/-- `XmlTranslationService.getTranslationUsageForKey`
(`translation_links[key] || []`). -/
def getTranslationUsageForKey (data : Option TranslationLinksIndex) (key : String) :
    List TranslationUsage :=
  match data with
  | none => []
  | some d => (mget key d.translation_links).getD []

/-- The comments payload (metadata block not modelled — never read by a
query). -/
structure CommentsIndex where
  comments : List (String × String)
deriving DecidableEq, Repr

/-- `CommentsService.getCommentForKey` (`comments[key] || null`; the empty
string is falsy and also yields `null`). -/
def getCommentForKey (data : Option CommentsIndex) (key : String) : Option String :=
  match data with
  | none => none
  | some d =>
    match mget key d.comments with
    | some c => if c = "" then none else some c
    | none => none

/-- C10: with nothing loaded (`categorizedData = null`, empty
`loadedTypes`, no XML/translation/comments payload), every query operation
returns its empty/null/zero result; all the embedded operations are total
functions, so no exception is possible. -/
theorem c10_unloaded_queries_return_empty (typeName memberName category className
    queryKey commentKey : String) (page : Nat) :
    getType none [] typeName = none ∧
    getInheritance none typeName = [] ∧
    getDerivedTypes none typeName = [] ∧
    getOverrideInfo none typeName memberName = none ∧
    getTypesByCategory none category page = [] ∧
    getAllTypesByCategory none category = [] ∧
    getCategoryTypeCount none category = 0 ∧
    getXmlUsageForClass none className = [] ∧
    getTranslationUsageForKey none queryKey = [] ∧
    getCommentForKey none commentKey = none := by
  exact ⟨rfl, rfl, rfl, rfl, rfl, rfl, rfl, rfl, rfl, rfl⟩

/-! ## C3 — typeIndex / category-map invariant -/

/-- The last element of `ts` satisfying `p`: the value a chain of
`Map.set` writes leaves behind (last write wins). -/
def lastWith (p : Ty → Bool) : List Ty → Option Ty
  | [] => none
  | t :: ts =>
    match lastWith p ts with
    | some u => some u
    | none => if p t then some t else none

theorem lastWith_sat {p : Ty → Bool} : ∀ {ts : List Ty} {u : Ty},
    lastWith p ts = some u → p u = true := by
  intro ts
  induction ts with
  | nil => intro u h; simp [lastWith] at h
  | cons t ts ih =>
    intro u h
    unfold lastWith at h
    cases hts : lastWith p ts with
    | some v => rw [hts] at h; exact ih (hts.trans (by injection h with h; rw [h]))
    | none =>
      rw [hts] at h
      by_cases hp : p t = true
      · simp [hp] at h; rwa [← h]
      · simp [hp] at h

theorem lastWith_mem {p : Ty → Bool} : ∀ {ts : List Ty} {u : Ty},
    lastWith p ts = some u → u ∈ ts := by
  intro ts
  induction ts with
  | nil => intro u h; simp [lastWith] at h
  | cons t ts ih =>
    intro u h
    unfold lastWith at h
    cases hts : lastWith p ts with
    | some v =>
      rw [hts] at h
      exact List.mem_cons_of_mem t (ih (hts.trans (by injection h with h; rw [h])))
    | none =>
      rw [hts] at h
      by_cases hp : p t = true
      · simp [hp] at h; rw [← h]; exact List.mem_cons_self t ts
      · simp [hp] at h

theorem lastWith_isSome_of_mem {p : Ty → Bool} {ts : List Ty} {t : Ty}
    (ht : t ∈ ts) (hp : p t = true) : (lastWith p ts).isSome := by
  induction ts with
  | nil => cases ht
  | cons u ts ih =>
    unfold lastWith
    cases hts : lastWith p ts with
    | some v => simp
    | none =>
      rcases List.mem_cons.mp ht with h | h
      · subst h; simp [hp]
      · have := ih h; rw [hts] at this; simp at this

theorem lastWith_none {p : Ty → Bool} : ∀ {ts : List Ty},
    lastWith p ts = none → ∀ x ∈ ts, p x = false := by
  intro ts
  induction ts with
  | nil => intro _ x hx; cases hx
  | cons t ts ih =>
    intro h x hx
    unfold lastWith at h
    cases hts : lastWith p ts with
    | some v => rw [hts] at h; cases h
    | none =>
      rw [hts] at h
      by_cases hp : p t = true
      · simp [hp] at h
      · rcases List.mem_cons.mp hx with hh | hh
        · subst hh; simpa using hp
        · exact ih hts x hh

theorem lastWith_unique {p : Ty → Bool} {ts : List Ty} {t : Ty}
    (huniq : ∀ u ∈ ts, p u = true → u = t) (ht : t ∈ ts) (hp : p t = true) :
    lastWith p ts = some t := by
  cases hs : lastWith p ts with
  | none => exact absurd (lastWith_none hs t ht) (by simp [hp])
  | some u => rw [huniq u (lastWith_mem hs) (lastWith_sat hs)]

/-- Category map of a `CatM` selected by kind. -/
def catMOfKind (c : CatM) : Kind → List (String × Ty)
  | Kind.classKind => c.classes
  | Kind.enumKind => c.enums
  | Kind.interfaceKind => c.interfaces
  | Kind.structKind => c.structs

theorem catMStep_typeIndex (c : CatM) (t : Ty) :
    (catMStep c t).typeIndex = mset t.name t c.typeIndex := by
  unfold catMStep
  cases t.kind <;> dsimp only <;> split <;> rfl

theorem catMStep_kindMap (c : CatM) (t : Ty) (kd : Kind) :
    catMOfKind (catMStep c t) kd =
      if t.kind = kd then mset t.name t (catMOfKind c kd) else catMOfKind c kd := by
  unfold catMStep
  cases htk : t.kind <;> cases kd <;> dsimp only <;> split <;>
    simp [catMOfKind, htk]

theorem lastWith_cons (p : Ty → Bool) (t : Ty) (ts : List Ty) :
    lastWith p (t :: ts) =
      match lastWith p ts with
      | some u => some u
      | none => if p t then some t else none := rfl

theorem foldl_catMStep_typeIndex_mget (ts : List Ty) (c : CatM) (k : String) :
    mget k (ts.foldl catMStep c).typeIndex =
      match lastWith (fun u => u.name == k) ts with
      | some u => some u
      | none => mget k c.typeIndex := by
  induction ts generalizing c with
  | nil => simp [lastWith]
  | cons t ts ih =>
    rw [List.foldl_cons, ih, lastWith_cons]
    cases hts : lastWith (fun u => u.name == k) ts with
    | some u => rfl
    | none =>
      dsimp only
      rw [catMStep_typeIndex]
      by_cases hn : t.name = k
      · subst hn; simp [mget_mset_self]
      · simp [hn, mget_mset_ne _ _ _ _ hn]

theorem foldl_catMStep_kindMap_mget (ts : List Ty) (c : CatM) (k : String) (kd : Kind) :
    mget k (catMOfKind (ts.foldl catMStep c) kd) =
      match lastWith (fun u => u.name == k && u.kind == kd) ts with
      | some u => some u
      | none => mget k (catMOfKind c kd) := by
  induction ts generalizing c with
  | nil => simp [lastWith]
  | cons t ts ih =>
    rw [List.foldl_cons, ih, lastWith_cons]
    cases hts : lastWith (fun u => u.name == k && u.kind == kd) ts with
    | some u => rfl
    | none =>
      dsimp only
      rw [catMStep_kindMap]
      by_cases hk : t.kind = kd
      · by_cases hn : t.name = k
        · subst hn; subst hk; simp [mget_mset_self]
        · simp [hk, hn, mget_mset_ne _ _ _ _ hn]
      · have : (t.name == k && t.kind == kd) = false := by
          simp [beq_iff_eq]
          intro _
          exact hk
        simp [hk, this]

/-- Distinct keys of an association-list map (the invariant `Map.set`
maintains). -/
def NodupKeys (m : List (String × α)) : Prop := (m.map Prod.fst).Nodup

theorem keys_mset_subset (k : String) (v : α) (m : List (String × α)) :
    ∀ x ∈ (mset k v m).map Prod.fst, x = k ∨ x ∈ m.map Prod.fst := by
  induction m with
  | nil => simp [mset]
  | cons e rest ih =>
    intro x hx
    by_cases h : e.1 = k
    · rw [mset_cons, if_pos h] at hx
      simp only [List.map_cons, List.mem_cons] at hx
      rcases hx with hx | hx
      · exact Or.inl hx
      · exact Or.inr (by simp [hx])
    · rw [mset_cons, if_neg h] at hx
      simp only [List.map_cons, List.mem_cons] at hx
      rcases hx with hx | hx
      · exact Or.inr (by simp [hx])
      · rcases ih x hx with h' | h'
        · exact Or.inl h'
        · exact Or.inr (by simp [h'])

theorem nodupKeys_mset (k : String) (v : α) (m : List (String × α))
    (h : NodupKeys m) : NodupKeys (mset k v m) := by
  induction m with
  | nil => simp [NodupKeys, mset]
  | cons e rest ih =>
    unfold NodupKeys at h ⊢
    simp only [List.map_cons, List.nodup_cons] at h
    by_cases he : e.1 = k
    · rw [mset_cons, if_pos he]
      simp only [List.map_cons, List.nodup_cons]
      exact ⟨he ▸ h.1, h.2⟩
    · rw [mset_cons, if_neg he]
      simp only [List.map_cons, List.nodup_cons]
      refine ⟨fun hmem => ?_, ih h.2⟩
      rcases keys_mset_subset k v rest e.1 hmem with h' | h'
      · exact he h'
      · exact h.1 h'

theorem countP_key_eq_zero (k : String) (m : List (String × α))
    (h : k ∉ m.map Prod.fst) : m.countP (fun e => e.1 == k) = 0 := by
  induction m with
  | nil => rfl
  | cons e rest ih =>
    simp only [List.map_cons, List.mem_cons, not_or] at h
    rw [List.countP_cons]
    have : (fun (e : String × α) => e.1 == k) e = false := by
      simp [beq_iff_eq]
      exact fun hh => h.1 (by rw [hh])
    simp [this, ih h.2]

theorem countP_key_eq_one (k : String) (v : α) (m : List (String × α))
    (h : NodupKeys m) (hget : mget k m = some v) :
    m.countP (fun e => e.1 == k) = 1 := by
  induction m with
  | nil => cases hget
  | cons e rest ih =>
    unfold NodupKeys at h
    simp only [List.map_cons, List.nodup_cons] at h
    rw [mget_cons] at hget
    by_cases he : e.1 = k
    · rw [List.countP_cons]
      have hp : (fun (e : String × α) => e.1 == k) e = true := by simp [beq_iff_eq, he]
      have hz : rest.countP (fun e => e.1 == k) = 0 :=
        countP_key_eq_zero k rest (he ▸ h.1)
      simp [hp, hz]
    · rw [if_neg he] at hget
      rw [List.countP_cons]
      have hp : (fun (e : String × α) => e.1 == k) e = false := by simp [beq_iff_eq, he]
      simp [hp, ih h.2 hget]

theorem nodupKeys_foldl_catMStep_typeIndex (ts : List Ty) (c : CatM)
    (h : NodupKeys c.typeIndex) : NodupKeys (ts.foldl catMStep c).typeIndex := by
  induction ts generalizing c with
  | nil => exact h
  | cons t ts ih =>
    rw [List.foldl_cons]
    exact ih _ (by rw [catMStep_typeIndex]; exact nodupKeys_mset _ _ _ h)

theorem nodupKeys_foldl_catMStep_kindMap (ts : List Ty) (c : CatM) (kd : Kind)
    (h : NodupKeys (catMOfKind c kd)) :
    NodupKeys (catMOfKind (ts.foldl catMStep c) kd) := by
  induction ts generalizing c with
  | nil => exact h
  | cons t ts ih =>
    rw [List.foldl_cons]
    refine ih _ ?_
    rw [catMStep_kindMap]
    by_cases hk : t.kind = kd
    · rw [if_pos hk]; exact nodupKeys_mset _ _ _ h
    · rwa [if_neg hk]

theorem categorizeDataM_typeIndex (d : DocsIndex) :
    (categorizeDataM d).typeIndex = (d.types.foldl catMStep (catM0 d)).typeIndex := rfl

theorem categorizeDataM_kindMap (d : DocsIndex) (kd : Kind) :
    catMOfKind (categorizeDataM d) kd =
      catMOfKind (d.types.foldl catMStep (catM0 d)) kd := by
  cases kd <;> rfl

/-- C3: after index construction, each input record's name is present
exactly once as a key of `typeIndex` and exactly once in the category map
of its kind; the stored value is an input record of that name (and kind),
namely the last such record in input order (duplicate names are
last-write-wins). -/
theorem c3_type_index_and_categories (d : DocsIndex) (t : Ty) (ht : t ∈ d.types) :
    (∃ u, u ∈ d.types ∧ u.name = t.name ∧
      mget t.name (categorizeDataM d).typeIndex = some u) ∧
    (categorizeDataM d).typeIndex.countP (fun e => e.1 == t.name) = 1 ∧
    (∃ u, u ∈ d.types ∧ u.name = t.name ∧ u.kind = t.kind ∧
      mget t.name (catMOfKind (categorizeDataM d) t.kind) = some u) ∧
    (catMOfKind (categorizeDataM d) t.kind).countP (fun e => e.1 == t.name) = 1 ∧
    mget t.name (categorizeDataM d).typeIndex =
      lastWith (fun u => u.name == t.name) d.types ∧
    mget t.name (catMOfKind (categorizeDataM d) t.kind) =
      lastWith (fun u => u.name == t.name && u.kind == t.kind) d.types := by
  have hTI : mget t.name (categorizeDataM d).typeIndex =
      lastWith (fun u => u.name == t.name) d.types := by
    rw [categorizeDataM_typeIndex, foldl_catMStep_typeIndex_mget]
    cases hlw : lastWith (fun u => u.name == t.name) d.types <;> simp [catM0, mget]
  have hKM : mget t.name (catMOfKind (categorizeDataM d) t.kind) =
      lastWith (fun u => u.name == t.name && u.kind == t.kind) d.types := by
    rw [categorizeDataM_kindMap, foldl_catMStep_kindMap_mget]
    cases hlw : lastWith (fun u => u.name == t.name && u.kind == t.kind) d.types <;>
      cases t.kind <;> simp [catM0, catMOfKind, mget]
  have hsome1 : (lastWith (fun u => u.name == t.name) d.types).isSome :=
    lastWith_isSome_of_mem ht (by simp)
  have hsome2 : (lastWith (fun u => u.name == t.name && u.kind == t.kind) d.types).isSome :=
    lastWith_isSome_of_mem ht (by simp)
  obtain ⟨u1, hu1⟩ := Option.isSome_iff_exists.mp hsome1
  obtain ⟨u2, hu2⟩ := Option.isSome_iff_exists.mp hsome2
  have hnk1 : NodupKeys (categorizeDataM d).typeIndex := by
    rw [categorizeDataM_typeIndex]
    exact nodupKeys_foldl_catMStep_typeIndex _ _ (by simp [catM0, NodupKeys])
  have hnk2 : NodupKeys (catMOfKind (categorizeDataM d) t.kind) := by
    rw [categorizeDataM_kindMap]
    refine nodupKeys_foldl_catMStep_kindMap _ _ _ ?_
    cases t.kind <;> simp [catM0, catMOfKind, NodupKeys]
  refine ⟨⟨u1, lastWith_mem hu1, ?_, by rw [hTI, hu1]⟩,
          countP_key_eq_one _ u1 _ hnk1 (by rw [hTI, hu1]),
          ⟨u2, lastWith_mem hu2, ?_, ?_, by rw [hKM, hu2]⟩,
          countP_key_eq_one _ u2 _ hnk2 (by rw [hKM, hu2]), hTI, hKM⟩
  · have := lastWith_sat hu1; simpa [beq_iff_eq] using this
  · have := lastWith_sat hu2
    simp only [Bool.and_eq_true, beq_iff_eq] at this
    exact this.1
  · have := lastWith_sat hu2
    simp only [Bool.and_eq_true, beq_iff_eq] at this
    exact this.2

/-- The type record of the C3 witness corpus. -/
def c3Pawn : Ty :=
  { name := "Pawn", kind := Kind.classKind, access_modifier := "public",
    modifiers := [], base_types := [], file := "Verse\\Pawn.cs",
    line := 1, member_count := 0, members := [] }

/-- The one-type corpus of the C3 witness. -/
def c3Doc : DocsIndex :=
  { generated_at := "now", total_types := 1, total_members := 0,
    type_counts := { classCount := 1, structCount := 0, interfaceCount := 0, enumCount := 0 },
    types := [c3Pawn] }

/-- Witness for C3 at the one-type corpus. -/
theorem c3_witness :
    c3Pawn ∈ c3Doc.types ∧
    (∃ u, u ∈ c3Doc.types ∧ u.name = c3Pawn.name ∧
      mget c3Pawn.name (categorizeDataM c3Doc).typeIndex = some u) := by
  refine ⟨by simp [c3Doc], ?_⟩
  exact (c3_type_index_and_categories c3Doc c3Pawn (by simp [c3Doc])).1

/-! ## C4 — inheritance / derived-types round trip -/

theorem catRStep_typeIndex (c : CatR) (t : Ty) :
    (catRStep c t).typeIndex = mset t.name t c.typeIndex := by
  unfold catRStep
  by_cases hb : t.base_types = [] <;> cases t.kind <;> simp [hb]

theorem catRStep_inheritance (c : CatR) (t : Ty) :
    (catRStep c t).inheritance =
      if t.base_types ≠ [] then mset t.name t.base_types c.inheritance
      else c.inheritance := by
  unfold catRStep
  by_cases hb : t.base_types = [] <;> cases t.kind <;> simp [hb]

theorem foldl_catRStep_typeIndex (ts : List Ty) (c : CatR) :
    (ts.foldl catRStep c).typeIndex =
      ts.foldl (fun m t => mset t.name t m) c.typeIndex := by
  induction ts generalizing c with
  | nil => rfl
  | cons t ts ih => rw [List.foldl_cons, List.foldl_cons, ih, catRStep_typeIndex]

theorem mset_fresh_append (k : String) (v : α) (m : List (String × α))
    (h : k ∉ m.map Prod.fst) : mset k v m = m ++ [(k, v)] := by
  induction m with
  | nil => rfl
  | cons e rest ih =>
    simp only [List.map_cons, List.mem_cons, not_or] at h
    rw [mset_cons, if_neg (fun he => h.1 he.symm), ih h.2, List.cons_append]

theorem fold_mset_entries (ts : List Ty) (m : List (String × Ty))
    (hfresh : ∀ t ∈ ts, t.name ∉ m.map Prod.fst)
    (hnodup : (ts.map Ty.name).Nodup) :
    ts.foldl (fun m t => mset t.name t m) m = m ++ ts.map (fun t => (t.name, t)) := by
  induction ts generalizing m with
  | nil => simp
  | cons t ts ih =>
    simp only [List.map_cons, List.nodup_cons] at hnodup
    rw [List.foldl_cons, mset_fresh_append t.name t m (hfresh t (by simp))]
    rw [ih (m ++ [(t.name, t)]) ?_ hnodup.2]
    · simp
    · intro u hu
      simp only [List.map_append, List.mem_append] at *
      push_neg
      refine ⟨hfresh u (by simp [hu]), ?_⟩
      intro hmem
      simp only [List.map_cons, List.map_nil, List.mem_singleton] at hmem
      exact hnodup.1 (hmem ▸ List.mem_map_of_mem Ty.name hu)

/-- With pairwise-distinct names, `typeIndex` is exactly the input list as
an entry list. -/
theorem categorizeDataR_typeIndex_entries (d : DocsIndex)
    (hnames : (d.types.map Ty.name).Nodup) :
    (categorizeDataR d).typeIndex = d.types.map (fun t => (t.name, t)) := by
  have h1 : (categorizeDataR d).typeIndex =
      (d.types.foldl catRStep (catR0 d)).typeIndex := rfl
  rw [h1, foldl_catRStep_typeIndex]
  have : (catR0 d).typeIndex = [] := rfl
  rw [this, fold_mset_entries d.types [] (by simp) hnames]
  simp

theorem mvalues_entries (ts : List Ty) :
    mvalues (ts.map fun t => (t.name, t)) = ts := by
  simp [mvalues, List.map_map]
  exact List.map_id ts

/-- `lastWith`-style description of the inheritance map after the build
fold. -/
theorem foldl_catRStep_inheritance_mget (ts : List Ty) (c : CatR) (k : String) :
    mget k (ts.foldl catRStep c).inheritance =
      match lastWith (fun u => u.name == k && !u.base_types.isEmpty) ts with
      | some u => some u.base_types
      | none => mget k c.inheritance := by
  induction ts generalizing c with
  | nil => simp [lastWith]
  | cons t ts ih =>
    rw [List.foldl_cons, ih, lastWith_cons]
    cases hts : lastWith (fun u => u.name == k && !u.base_types.isEmpty) ts with
    | some u => rfl
    | none =>
      dsimp only
      rw [catRStep_inheritance]
      by_cases hb : t.base_types = []
      · simp [hb]
      · rw [if_pos hb]
        by_cases hn : t.name = k
        · subst hn; simp [mget_mset_self, hb]
        · simp [hn, hb, mget_mset_ne _ _ _ _ hn]

/-- Derived-list view of the derived-types map. -/
def derivView (m : List (String × List String)) (b : String) : List String :=
  (mget b m).getD []

theorem derivedAdd_mem_self (b n : String) (m : List (String × List String)) :
    n ∈ derivView (derivedAdd b n m) b := by
  unfold derivedAdd derivView
  cases h : mget b m with
  | some l => simp [mget_mset_self]
  | none => simp [mget_mset_self]

theorem derivedAdd_preserve {x k : String} {m : List (String × List String)}
    (b n : String) (h : x ∈ derivView m k) :
    x ∈ derivView (derivedAdd b n m) k := by
  unfold derivView at *
  by_cases hbk : b = k
  · subst hbk
    unfold derivedAdd
    cases hm : mget b m with
    | some l => rw [hm] at h; simp [mget_mset_self]; exact Or.inl h
    | none => rw [hm] at h; simp at h
  · unfold derivedAdd
    cases hm : mget b m with
    | some l => rwa [mget_mset_ne _ _ _ _ hbk]
    | none => rwa [mget_mset_ne _ _ _ _ hbk]

theorem foldAdds_preserve {x k : String} (bs : List String) (n : String)
    {m : List (String × List String)} (h : x ∈ derivView m k) :
    x ∈ derivView (bs.foldl (fun acc b => derivedAdd b n acc) m) k := by
  induction bs generalizing m with
  | nil => exact h
  | cons b bs ih => exact ih (derivedAdd_preserve b n h)

theorem foldAdds_establish {b : String} (bs : List String) (n : String)
    (m : List (String × List String)) (hb : b ∈ bs) :
    n ∈ derivView (bs.foldl (fun acc b' => derivedAdd b' n acc) m) b := by
  induction bs generalizing m with
  | nil => cases hb
  | cons b' bs ih =>
    rw [List.foldl_cons]
    rcases List.mem_cons.mp hb with h | h
    · subst h
      exact foldAdds_preserve bs n (derivedAdd_mem_self b n m)
    · exact ih _ h

theorem derivTypeStep_preserve {x k : String} {m : List (String × List String)}
    (t : Ty) (h : x ∈ derivView m k) : x ∈ derivView (derivTypeStep m t) k := by
  unfold derivTypeStep
  split
  · exact foldAdds_preserve _ _ h
  · exact h

theorem typesFold_preserve {x k : String} (ts : List Ty)
    {m : List (String × List String)} (h : x ∈ derivView m k) :
    x ∈ derivView (ts.foldl derivTypeStep m) k := by
  induction ts generalizing m with
  | nil => exact h
  | cons t ts ih => exact ih (derivTypeStep_preserve t h)

theorem typesFold_establish {b : String} {t : Ty} (ts : List Ty)
    (m : List (String × List String)) (ht : t ∈ ts) (hb : b ∈ t.base_types) :
    t.name ∈ derivView (ts.foldl derivTypeStep m) b := by
  induction ts generalizing m with
  | nil => cases ht
  | cons t' ts ih =>
    rw [List.foldl_cons]
    rcases List.mem_cons.mp ht with h | h
    · subst h
      refine typesFold_preserve ts ?_
      unfold derivTypeStep
      rw [if_pos (by intro he; rw [he] at hb; cases hb)]
      exact foldAdds_establish t.base_types t.name m hb
    · exact ih _ h

/-- C4 amended: over corpora with pairwise-distinct type names, for every
type `t` and every declared base `b` of `t` — indexed or not —
`getInheritance t.name` returns the declared base list and `t.name`
appears in `getDerivedTypes b`, with every embedded operation total (no
exception). -/
theorem c4_amended_inheritance_round_trip (d : DocsIndex)
    (hnames : (d.types.map Ty.name).Nodup) :
    ∀ t ∈ d.types, ∀ b ∈ t.base_types,
      getInheritance (some (categorizeDataR d)) t.name = t.base_types ∧
      t.name ∈ getDerivedTypes (some (categorizeDataR d)) b := by
  intro t ht b hb
  have hbne : t.base_types ≠ [] := by intro he; rw [he] at hb; cases hb
  constructor
  · have h1 : (categorizeDataR d).inheritance =
        (d.types.foldl catRStep (catR0 d)).inheritance := rfl
    have hlw : lastWith (fun u => u.name == t.name && !u.base_types.isEmpty) d.types
        = some t := by
      refine lastWith_unique ?_ ht ?_
      · intro u hu hp
        simp only [Bool.and_eq_true, beq_iff_eq] at hp
        exact List.inj_on_of_nodup_map hnames hu ht hp.1
      · simp [hbne]
    show (mget t.name (categorizeDataR d).inheritance).getD [] = t.base_types
    rw [h1, foldl_catRStep_inheritance_mget, hlw]
    rfl
  · have h2 : (categorizeDataR d).derivedTypes =
        buildInheritanceRelationshipsR (d.types.foldl catRStep (catR0 d)).typeIndex := rfl
    show t.name ∈ (mget b (categorizeDataR d).derivedTypes).getD []
    rw [h2]
    unfold buildInheritanceRelationshipsR
    rw [foldl_catRStep_typeIndex,
        show (catR0 d).typeIndex = [] from rfl,
        fold_mset_entries d.types [] (by simp) hnames]
    simp only [List.nil_append]
    rw [mvalues_entries]
    exact typesFold_establish d.types [] ht hb

/-- The corpus of the C4 witness: one type inheriting from the unindexed
base `Thing` (the spec's own example). -/
def c4ThatType : Ty :=
  { name := "ThatType", kind := Kind.classKind, access_modifier := "public",
    modifiers := [], base_types := ["Thing"], file := "Verse\\ThatType.cs",
    line := 1, member_count := 0, members := [] }

/-- The one-type corpus of the C4 witness. -/
def c4Doc : DocsIndex :=
  { generated_at := "now", total_types := 1, total_members := 0,
    type_counts := { classCount := 1, structCount := 0, interfaceCount := 0, enumCount := 0 },
    types := [c4ThatType] }

/-- Witness for the amended C4 theorem: inheritance from the unindexed
base `Thing` round-trips with no error. -/
theorem c4_amended_witness :
    getInheritance (some (categorizeDataR c4Doc)) "ThatType" = ["Thing"] ∧
    "ThatType" ∈ getDerivedTypes (some (categorizeDataR c4Doc)) "Thing" := by
  have h := c4_amended_inheritance_round_trip c4Doc (by simp [c4Doc, c4ThatType])
    c4ThatType (by simp [c4Doc]) "Thing" (by simp [c4ThatType])
  exact h

/-- The duplicate-name corpus refuting C4 as stated: the first `T` record
declares base `B`, the second (last-write-wins in `typeIndex`) declares no
bases. -/
def c4DupDoc : DocsIndex :=
  { generated_at := "now", total_types := 2, total_members := 0,
    type_counts := { classCount := 2, structCount := 0, interfaceCount := 0, enumCount := 0 },
    types :=
      [{ name := "T", kind := Kind.classKind, access_modifier := "public",
         modifiers := [], base_types := ["B"], file := "A\\T.cs",
         line := 1, member_count := 0, members := [] },
       { name := "T", kind := Kind.classKind, access_modifier := "public",
         modifiers := [], base_types := [], file := "A\\T2.cs",
         line := 9, member_count := 0, members := [] }] }

/-- C4 counterexample: with the duplicate-name corpus, the inheritance map
holds the pair `(T, B)` — `getInheritance "T" = ["B"]` — yet
`derivedTypes` was rebuilt from the deduplicated `typeIndex` values (whose
last `T` has no bases), so `getDerivedTypes "B"` is empty and does not
contain `T`, refuting the claim for every input list. -/
theorem c4_counterexample :
    getInheritance (some (categorizeDataR c4DupDoc)) "T" = ["B"] ∧
    getDerivedTypes (some (categorizeDataR c4DupDoc)) "B" = [] := by
  exact ⟨rfl, rfl⟩

/-! ## C2 — bidirectional override consistency -/

theorem mget_mem {m : List (String × α)} {k : String} {v : α}
    (h : mget k m = some v) : (k, v) ∈ m := by
  induction m with
  | nil => cases h
  | cons e rest ih =>
    rw [mget_cons] at h
    by_cases he : e.1 = k
    · rw [if_pos he] at h
      injection h with h
      have heq : e = (k, v) := by
        obtain ⟨a, bb⟩ := e
        simp only at he h
        rw [he, h]
      rw [heq]
      exact List.mem_cons_self _ _
    · rw [if_neg he] at h
      exact List.mem_cons_of_mem e (ih h)

theorem pass2Step_none {m : List (String × OverrideInfo)}
    {e : String × OverrideInfo} (he : e.2.overrides = none) :
    pass2Step m e = m := by
  unfold pass2Step
  rw [he]

theorem pass2Step_some {m : List (String × OverrideInfo)}
    {e : String × OverrideInfo} {bk : String} (he : e.2.overrides = some bk) :
    pass2Step m e = pushOverriddenBy e.1 bk m := by
  unfold pass2Step
  rw [he]

theorem pushOverriddenBy_found {k b : String} {m : List (String × OverrideInfo)}
    {j : OverrideInfo} (hm : mget b m = some j) :
    pushOverriddenBy k b m =
      mset b { j with overriddenBy := j.overriddenBy ++ [k] } m := by
  unfold pushOverriddenBy
  rw [hm]

theorem pushOverriddenBy_missing {k b : String} {m : List (String × OverrideInfo)}
    (hm : mget b m = none) :
    pushOverriddenBy k b m = mset b { overrides := none, overriddenBy := [k] } m := by
  unfold pushOverriddenBy
  rw [hm]

theorem pass2Step_overrides_back {m : List (String × OverrideInfo)}
    {e : String × OverrideInfo} {k b : String} {i : OverrideInfo}
    (hget : mget k (pass2Step m e) = some i) (hov : i.overrides = some b) :
    ∃ i0, mget k m = some i0 ∧ i0.overrides = some b := by
  cases he : e.2.overrides with
  | none => rw [pass2Step_none he] at hget; exact ⟨i, hget, hov⟩
  | some bk =>
    rw [pass2Step_some he] at hget
    cases hm : mget bk m with
    | some j =>
      rw [pushOverriddenBy_found hm] at hget
      by_cases hkb : bk = k
      · subst hkb
        rw [mget_mset_self] at hget
        injection hget with hget
        refine ⟨j, hm, ?_⟩
        rw [← hov, ← hget]
      · rw [mget_mset_ne _ _ _ _ hkb] at hget
        exact ⟨i, hget, hov⟩
    | none =>
      rw [pushOverriddenBy_missing hm] at hget
      by_cases hkb : bk = k
      · subst hkb
        rw [mget_mset_self] at hget
        injection hget with hget
        rw [← hget] at hov
        cases hov
      · rw [mget_mset_ne _ _ _ _ hkb] at hget
        exact ⟨i, hget, hov⟩

theorem pass2_fold_overrides_back (l : List (String × OverrideInfo)) :
    ∀ (m : List (String × OverrideInfo)) (k b : String) (i : OverrideInfo),
    mget k (l.foldl pass2Step m) = some i → i.overrides = some b →
    ∃ i0, mget k m = some i0 ∧ i0.overrides = some b := by
  induction l with
  | nil => intro m k b i h hov; exact ⟨i, h, hov⟩
  | cons e l ih =>
    intro m k b i h hov
    rw [List.foldl_cons] at h
    obtain ⟨i1, h1, hov1⟩ := ih _ k b i h hov
    exact pass2Step_overrides_back h1 hov1

/-- The pushed-reverse-edge property preserved by pass 2. -/
def HasReverse (b k : String) (m : List (String × OverrideInfo)) : Prop :=
  ∃ i, mget b m = some i ∧ k ∈ i.overriddenBy

theorem pass2Step_preserves_hasReverse {b k : String}
    {m : List (String × OverrideInfo)} (e : String × OverrideInfo)
    (h : HasReverse b k m) : HasReverse b k (pass2Step m e) := by
  obtain ⟨i, hget, hmem⟩ := h
  cases he : e.2.overrides with
  | none => rw [pass2Step_none he]; exact ⟨i, hget, hmem⟩
  | some bk =>
    rw [pass2Step_some he]
    cases hm : mget bk m with
    | some j =>
      rw [pushOverriddenBy_found hm]
      by_cases hkb : bk = b
      · subst hkb
        rw [hm] at hget
        injection hget with hget
        subst hget
        refine ⟨_, mget_mset_self _ _ _, ?_⟩
        simp [hmem]
      · exact ⟨i, by rw [mget_mset_ne _ _ _ _ hkb]; exact hget, hmem⟩
    | none =>
      rw [pushOverriddenBy_missing hm]
      by_cases hkb : bk = b
      · subst hkb; rw [hm] at hget; cases hget
      · exact ⟨i, by rw [mget_mset_ne _ _ _ _ hkb]; exact hget, hmem⟩

theorem pass2_fold_preserves_hasReverse {b k : String}
    (l : List (String × OverrideInfo)) {m : List (String × OverrideInfo)}
    (h : HasReverse b k m) : HasReverse b k (l.foldl pass2Step m) := by
  induction l generalizing m with
  | nil => exact h
  | cons e l ih => exact ih (pass2Step_preserves_hasReverse e h)

theorem pass2Step_establishes {b : String} (m : List (String × OverrideInfo))
    (e : String × OverrideInfo) (hov : e.2.overrides = some b) :
    HasReverse b e.1 (pass2Step m e) := by
  rw [pass2Step_some hov]
  cases hm : mget b m with
  | some j =>
    rw [pushOverriddenBy_found hm]
    refine ⟨_, mget_mset_self _ _ _, ?_⟩
    simp
  | none =>
    rw [pushOverriddenBy_missing hm]
    refine ⟨_, mget_mset_self _ _ _, ?_⟩
    simp

theorem pass2_fold_establishes {b : String} (l : List (String × OverrideInfo))
    (m : List (String × OverrideInfo)) (e : String × OverrideInfo)
    (he : e ∈ l) (hov : e.2.overrides = some b) :
    HasReverse b e.1 (l.foldl pass2Step m) := by
  induction l generalizing m with
  | nil => cases he
  | cons a l ih =>
    rw [List.foldl_cons]
    rcases List.mem_cons.mp he with h | h
    · subst h
      exact pass2_fold_preserves_hasReverse l (pass2Step_establishes m e hov)
    · exact ih _ h

/-- C2: after index construction (monolithic two-pass builder), every
override-map entry `A.m ↦ {overrides: B.m}` has a counterpart entry under
`B.m` whose `overriddenBy` list contains `A.m`. -/
theorem c2_bidirectional_override_consistency (d : DocsIndex) (k b : String)
    (i : OverrideInfo)
    (hget : mget k (categorizeDataM d).overrides = some i)
    (hov : i.overrides = some b) :
    ∃ ib, mget b (categorizeDataM d).overrides = some ib ∧ k ∈ ib.overriddenBy := by
  have hproj : (categorizeDataM d).overrides =
      buildOverridesPass2
        (buildOverridesPass1 (d.types.foldl catMStep (catM0 d)).typeIndex
          (overrideWalkFuel d)) := rfl
  rw [hproj] at hget ⊢
  set m0 := buildOverridesPass1 (d.types.foldl catMStep (catM0 d)).typeIndex
    (overrideWalkFuel d) with hm0
  unfold buildOverridesPass2 at hget ⊢
  obtain ⟨i0, h0, hov0⟩ := pass2_fold_overrides_back m0 m0 k b i hget hov
  exact pass2_fold_establishes m0 m0 (k, i0) (mget_mem h0) hov0

/-- Base type of the C2 witness corpus. -/
def c2Base : Ty :=
  { name := "B", kind := Kind.classKind, access_modifier := "public",
    modifiers := [], base_types := [], file := "A\\B.cs", line := 1,
    member_count := 1,
    members := [{ kind := MemberKind.method, name := "Draw",
                  access_modifier := "public", modifiers := ["virtual"],
                  return_type := some "void", signature := "", line := 2 }] }

/-- Derived type of the C2 witness corpus. -/
def c2Derived : Ty :=
  { name := "T", kind := Kind.classKind, access_modifier := "public",
    modifiers := [], base_types := ["B"], file := "A\\T.cs", line := 1,
    member_count := 1,
    members := [{ kind := MemberKind.method, name := "Draw",
                  access_modifier := "public", modifiers := ["override"],
                  return_type := some "void", signature := "", line := 2 }] }

/-- The C2 witness corpus. -/
def c2Doc : DocsIndex :=
  { generated_at := "now", total_types := 2, total_members := 2,
    type_counts := { classCount := 2, structCount := 0, interfaceCount := 0, enumCount := 0 },
    types := [c2Base, c2Derived] }

/-- Witness for C2: the recorded edge `T.Draw ↦ B.Draw` has its reverse
edge. -/
theorem c2_witness :
    ∃ ib, mget "B.Draw" (categorizeDataM c2Doc).overrides = some ib ∧
      "T.Draw" ∈ ib.overriddenBy :=
  c2_bidirectional_override_consistency c2Doc "T.Draw" "B.Draw"
    { overrides := some "B.Draw", overriddenBy := [] } rfl rfl

/-! ## C1 — override-edge recording -/

/-- The flat list of pass-1 writes, in execution order. -/
def pass1Acts (typeIndex : List (String × Ty)) (fuel : Nat) :
    List (String × OverrideInfo) :=
  (mvalues typeIndex).flatMap fun t =>
    if t.base_types.isEmpty then []
    else t.members.filterMap (pass1Act typeIndex fuel t)

theorem msetFold_filterMap (f : Member → Option (String × OverrideInfo))
    (ms : List Member) (acc : List (String × OverrideInfo)) :
    ms.foldl (fun acc m =>
        match f m with
        | some e => mset e.1 e.2 acc
        | none => acc) acc =
      (ms.filterMap f).foldl (fun m e => mset e.1 e.2 m) acc := by
  induction ms generalizing acc with
  | nil => rfl
  | cons m ms ih =>
    rw [List.foldl_cons, List.filterMap_cons]
    cases hf : f m with
    | some e => rw [ih, List.foldl_cons]
    | none => rw [ih]

theorem buildOverridesPass1_eq_acts (typeIndex : List (String × Ty)) (fuel : Nat) :
    buildOverridesPass1 typeIndex fuel =
      (pass1Acts typeIndex fuel).foldl (fun m e => mset e.1 e.2 m) [] := by
  unfold buildOverridesPass1 pass1Acts
  have aux : ∀ (ts : List Ty) (acc : List (String × OverrideInfo)),
      ts.foldl (fun acc t =>
          if t.base_types.isEmpty then acc
          else t.members.foldl (fun acc m =>
            match pass1Act typeIndex fuel t m with
            | some e => mset e.1 e.2 acc
            | none => acc) acc) acc =
        (ts.flatMap fun t =>
          if t.base_types.isEmpty then []
          else t.members.filterMap (pass1Act typeIndex fuel t)).foldl
          (fun m e => mset e.1 e.2 m) acc := by
    intro ts
    induction ts with
    | nil => intro acc; rfl
    | cons t ts ih =>
      intro acc
      rw [List.foldl_cons, List.flatMap_cons, List.foldl_append]
      by_cases hb : t.base_types.isEmpty
      · simp only [hb, if_true]
        rw [ih]
        rfl
      · simp only [hb, if_false, Bool.false_eq_true]
        rw [msetFold_filterMap, ih]
  exact aux (mvalues typeIndex) []

/-- The last value written under key `k` by a list of writes (in list
order). -/
def lastPair (k : String) : List (String × α) → Option α
  | [] => none
  | e :: l =>
    match lastPair k l with
    | some v => some v
    | none => if e.1 = k then some e.2 else none

theorem lastPair_cons (k : String) (e : String × α) (l : List (String × α)) :
    lastPair k (e :: l) =
      match lastPair k l with
      | some v => some v
      | none => if e.1 = k then some e.2 else none := rfl

theorem mget_foldl_mset (l : List (String × α)) (m : List (String × α)) (k : String) :
    mget k (l.foldl (fun m e => mset e.1 e.2 m) m) =
      match lastPair k l with
      | some v => some v
      | none => mget k m := by
  induction l generalizing m with
  | nil => simp [lastPair]
  | cons e l ih =>
    rw [List.foldl_cons, ih, lastPair_cons]
    cases hl : lastPair k l with
    | some v => rfl
    | none =>
      dsimp only
      by_cases he : e.1 = k
      · rw [if_pos he, ← he, mget_mset_self]
      · rw [if_neg he, mget_mset_ne _ _ _ _ he]

theorem lastPair_mem {k : String} {v : α} : ∀ {l : List (String × α)},
    lastPair k l = some v → (k, v) ∈ l := by
  intro l
  induction l with
  | nil => intro h; cases h
  | cons e l ih =>
    intro h
    rw [lastPair_cons] at h
    cases hl : lastPair k l with
    | some w =>
      rw [hl] at h
      injection h with h
      exact List.mem_cons_of_mem e (ih (hl.trans (by rw [h])))
    | none =>
      rw [hl] at h
      by_cases he : e.1 = k
      · rw [if_pos he] at h
        injection h with h
        have : e = (k, v) := by
          obtain ⟨a, bb⟩ := e
          simp only at he h
          rw [he, h]
        rw [this]
        exact List.mem_cons_self _ _
      · rw [if_neg he] at h
        cases h

theorem lastPair_none_of_not_mem {k : String} {l : List (String × α)}
    (h : ∀ v, (k, v) ∉ l) : lastPair k l = none := by
  cases hl : lastPair k l with
  | none => rfl
  | some v => exact absurd (lastPair_mem hl) (h v)

theorem lastPair_isSome_of_mem {k : String} {v : α} {l : List (String × α)}
    (hmem : (k, v) ∈ l) : (lastPair k l).isSome := by
  induction l with
  | nil => cases hmem
  | cons e l ih =>
    rw [lastPair_cons]
    cases hl : lastPair k l with
    | some w => simp
    | none =>
      rcases List.mem_cons.mp hmem with hh | hh
      · rw [← hh]; simp
      · have := ih hh
        rw [hl] at this
        simp at this

theorem lastPair_unique {k : String} {v : α} {l : List (String × α)}
    (hmem : (k, v) ∈ l) (huniq : ∀ v', (k, v') ∈ l → v' = v) :
    lastPair k l = some v := by
  cases hl : lastPair k l with
  | some w => rw [huniq w (lastPair_mem hl)]
  | none =>
    have := lastPair_isSome_of_mem hmem
    rw [hl] at this
    simp at this

/-- The `overrides`-field view of the override map. -/
def ovView (m : List (String × OverrideInfo)) (k : String) : Option String :=
  (mget k m).bind OverrideInfo.overrides

theorem pass2Step_ovView (m : List (String × OverrideInfo))
    (e : String × OverrideInfo) (k : String) :
    ovView (pass2Step m e) k = ovView m k := by
  unfold ovView
  cases he : e.2.overrides with
  | none => rw [pass2Step_none he]
  | some bk =>
    rw [pass2Step_some he]
    cases hm : mget bk m with
    | some j =>
      rw [pushOverriddenBy_found hm]
      by_cases hkb : bk = k
      · subst hkb; rw [mget_mset_self, hm]; rfl
      · rw [mget_mset_ne _ _ _ _ hkb]
    | none =>
      rw [pushOverriddenBy_missing hm]
      by_cases hkb : bk = k
      · subst hkb; rw [mget_mset_self, hm]; rfl
      · rw [mget_mset_ne _ _ _ _ hkb]

theorem pass2_fold_ovView (l : List (String × OverrideInfo))
    (m : List (String × OverrideInfo)) (k : String) :
    ovView (l.foldl pass2Step m) k = ovView m k := by
  induction l generalizing m with
  | nil => rfl
  | cons e l ih => rw [List.foldl_cons, ih, pass2Step_ovView]

theorem append_dot_inj : ∀ (a1 : List Char) {b1 : List Char} (a2 : List Char)
    {b2 : List Char}, '.' ∉ a1 → '.' ∉ a2 →
    a1 ++ '.' :: b1 = a2 ++ '.' :: b2 → a1 = a2 ∧ b1 = b2 := by
  intro a1
  induction a1 with
  | nil =>
    intro b1 a2 b2 _ h2 h
    cases a2 with
    | nil =>
      simp only [List.nil_append] at h
      injection h with _ h
      exact ⟨rfl, h⟩
    | cons c a2 =>
      simp only [List.nil_append, List.cons_append] at h
      injection h with hc _
      have : '.' ∈ c :: a2 := by rw [hc]; exact List.mem_cons_self _ _
      exact absurd this h2
  | cons c a1 ih =>
    intro b1 a2 b2 h1 h2 h
    cases a2 with
    | nil =>
      simp only [List.cons_append, List.nil_append] at h
      injection h with hc _
      have : '.' ∈ c :: a1 := by rw [← hc]; exact List.mem_cons_self _ _
      exact absurd this h1
    | cons cc a2 =>
      simp only [List.cons_append] at h
      injection h with hc ht
      have h1' : '.' ∉ a1 := fun hx => h1 (List.mem_cons_of_mem _ hx)
      have h2' : '.' ∉ a2 := fun hx => h2 (List.mem_cons_of_mem _ hx)
      obtain ⟨ha, hb⟩ := ih a2 h1' h2' ht
      exact ⟨by rw [hc, ha], hb⟩

/-- Composite `Type.Member` keys are injective when neither name contains
the separator (the undocumented assumption §9 of the spec flags). -/
theorem memberKey_inj {t1n m1n t2n m2n : String}
    (h1 : '.' ∉ t1n.data) (h2 : '.' ∉ t2n.data)
    (h : t1n ++ "." ++ m1n = t2n ++ "." ++ m2n) : t1n = t2n ∧ m1n = m2n := by
  have hd := congrArg String.data h
  simp only [String.data_append] at hd
  rw [List.append_assoc, List.append_assoc] at hd
  simp only [List.singleton_append] at hd
  obtain ⟨ha, hb⟩ := append_dot_inj t1n.data t2n.data h1 h2 hd
  exact ⟨String.ext ha, String.ext hb⟩

theorem foldl_catMStep_typeIndex_eq (ts : List Ty) (c : CatM) :
    (ts.foldl catMStep c).typeIndex = ts.foldl (fun m t => mset t.name t m) c.typeIndex := by
  induction ts generalizing c with
  | nil => rfl
  | cons t ts ih => rw [List.foldl_cons, List.foldl_cons, ih, catMStep_typeIndex]

theorem categorizeDataM_typeIndex_entries (d : DocsIndex)
    (hnames : (d.types.map Ty.name).Nodup) :
    (categorizeDataM d).typeIndex = d.types.map (fun t => (t.name, t)) := by
  rw [categorizeDataM_typeIndex, foldl_catMStep_typeIndex_eq,
      show (catM0 d).typeIndex = [] from rfl,
      fold_mset_entries d.types [] (by simp) hnames]
  simp

/-- C1 amended: for corpora with pairwise-distinct type names,
pairwise-distinct member names within each type, and no `'.'` inside any
type name, index construction records
`overrides['T.m'].overrides = 'B.m'` exactly when the depth-first walk of
`T`'s base chain (direct bases first, recursing through each base's own
bases, short-circuiting at the first match) finds in an ancestor `B` a
member with the same name and compatible kind — with NO requirement that
the base member's modifiers include `virtual` or `abstract`; the first
match found in traversal order is the one recorded, and conversely every
recorded `overrides` field arises from such a member and walk. -/
theorem c1_amended_override_edge_characterisation (d : DocsIndex)
    (hnames : (d.types.map Ty.name).Nodup)
    (htdots : ∀ t ∈ d.types, '.' ∉ t.name.data)
    (hmnodup : ∀ t ∈ d.types, (t.members.map Member.name).Nodup) :
    (∀ t ∈ d.types, ∀ m ∈ t.members, m.modifiers.contains "override" = true →
      t.base_types ≠ [] →
      ovView (categorizeDataM d).overrides (t.name ++ "." ++ m.name) =
        findOverriddenMethod (categorizeDataM d).typeIndex m (overrideWalkFuel d)
          t.base_types) ∧
    (∀ k tg, ovView (categorizeDataM d).overrides k = some tg →
      ∃ t, t ∈ d.types ∧ ∃ m, m ∈ t.members ∧ k = t.name ++ "." ++ m.name ∧
        m.modifiers.contains "override" = true ∧ t.base_types ≠ [] ∧
        findOverriddenMethod (categorizeDataM d).typeIndex m (overrideWalkFuel d)
          t.base_types = some tg) := by
  have hover : (categorizeDataM d).overrides =
      buildOverridesPass2
        (buildOverridesPass1 (categorizeDataM d).typeIndex (overrideWalkFuel d)) := rfl
  have hview : ∀ k, ovView (categorizeDataM d).overrides k =
      match lastPair k (pass1Acts (categorizeDataM d).typeIndex (overrideWalkFuel d)) with
      | some i => i.overrides
      | none => none := by
    intro k
    rw [hover]
    unfold buildOverridesPass2
    rw [pass2_fold_ovView]
    unfold ovView
    rw [buildOverridesPass1_eq_acts, mget_foldl_mset]
    cases lastPair k (pass1Acts (categorizeDataM d).typeIndex (overrideWalkFuel d)) <;> rfl
  have hvals : mvalues (categorizeDataM d).typeIndex = d.types := by
    rw [categorizeDataM_typeIndex_entries d hnames, mvalues_entries]
  have hmem_acts : ∀ (k : String) (v : OverrideInfo),
      (k, v) ∈ pass1Acts (categorizeDataM d).typeIndex (overrideWalkFuel d) ↔
      ∃ t, t ∈ d.types ∧ t.base_types ≠ [] ∧ ∃ m, m ∈ t.members ∧
        pass1Act (categorizeDataM d).typeIndex (overrideWalkFuel d) t m = some (k, v) := by
    intro k v
    unfold pass1Acts
    rw [hvals]
    simp only [List.mem_flatMap]
    constructor
    · rintro ⟨t, ht, hin⟩
      by_cases hb : t.base_types.isEmpty
      · rw [if_pos hb] at hin; cases hin
      · rw [if_neg hb] at hin
        rw [List.mem_filterMap] at hin
        obtain ⟨m, hm, hact⟩ := hin
        refine ⟨t, ht, ?_, m, hm, hact⟩
        simpa [List.isEmpty_iff] using hb
    · rintro ⟨t, ht, hb, m, hm, hact⟩
      refine ⟨t, ht, ?_⟩
      rw [if_neg (by simpa [List.isEmpty_iff] using hb)]
      exact List.mem_filterMap.mpr ⟨m, hm, hact⟩
  have hact_some : ∀ (t : Ty) (m : Member) (k : String) (v : OverrideInfo),
      pass1Act (categorizeDataM d).typeIndex (overrideWalkFuel d) t m = some (k, v) ↔
      (m.modifiers.contains "override" = true ∧
       ∃ tg, findOverriddenMethod (categorizeDataM d).typeIndex m (overrideWalkFuel d)
           t.base_types = some tg ∧
         k = t.name ++ "." ++ m.name ∧ v = ⟨some tg, []⟩) := by
    intro t m k v
    unfold pass1Act
    by_cases ho : m.modifiers.contains "override"
    · rw [if_pos ho]
      cases hw : findOverriddenMethod (categorizeDataM d).typeIndex m (overrideWalkFuel d)
          t.base_types with
      | some tg =>
        constructor
        · intro h
          have h' : (t.name ++ "." ++ m.name, (⟨some tg, []⟩ : OverrideInfo)) = (k, v) :=
            Option.some.inj h
          have hk := congrArg Prod.fst h'
          have hv := congrArg Prod.snd h'
          exact ⟨ho, tg, rfl, hk.symm, hv.symm⟩
        · rintro ⟨_, tg', htg', hk, hv⟩
          have heq : tg = tg' := Option.some.inj htg'
          rw [hk, hv, ← heq]
      | none =>
        constructor
        · intro h
          exact Option.noConfusion h
        · rintro ⟨_, tg', htg', _, _⟩
          exact Option.noConfusion htg'
    · rw [if_neg ho]
      constructor
      · intro h
        exact Option.noConfusion h
      · rintro ⟨ho2, _⟩
        exact absurd ho2 ho
  have key_resolve : ∀ (t : Ty), t ∈ d.types → ∀ (m : Member), m ∈ t.members →
      ∀ (t' : Ty), t' ∈ d.types → ∀ (m' : Member), m' ∈ t'.members →
      t'.name ++ "." ++ m'.name = t.name ++ "." ++ m.name → t' = t ∧ m' = m := by
    intro t ht m hm t' ht' m' hm' hkey
    obtain ⟨htn, hmn⟩ := memberKey_inj (htdots t' ht') (htdots t ht) hkey
    have hteq : t' = t := List.inj_on_of_nodup_map hnames ht' ht htn
    subst hteq
    exact ⟨rfl, List.inj_on_of_nodup_map (hmnodup t' ht) hm' hm hmn⟩
  refine ⟨?_, ?_⟩
  · intro t ht m hm ho hbne
    rw [hview]
    cases hw : findOverriddenMethod (categorizeDataM d).typeIndex m (overrideWalkFuel d)
        t.base_types with
    | some tg =>
      have hmem : (t.name ++ "." ++ m.name, (⟨some tg, []⟩ : OverrideInfo)) ∈
          pass1Acts (categorizeDataM d).typeIndex (overrideWalkFuel d) :=
        (hmem_acts _ _).mpr ⟨t, ht, hbne, m, hm,
          (hact_some t m _ _).mpr ⟨ho, tg, hw, rfl, rfl⟩⟩
      have huniq : ∀ v', (t.name ++ "." ++ m.name, v') ∈
          pass1Acts (categorizeDataM d).typeIndex (overrideWalkFuel d) →
          v' = (⟨some tg, []⟩ : OverrideInfo) := by
        intro v' hv'
        obtain ⟨t', ht', hb', m', hm', hact'⟩ := (hmem_acts _ _).mp hv'
        obtain ⟨ho', tg', hw', hk', hv'eq⟩ := (hact_some t' m' _ _).mp hact'
        obtain ⟨hteq, hmeq⟩ := key_resolve t ht m hm t' ht' m' hm' hk'.symm
        subst hteq
        subst hmeq
        rw [hw] at hw'
        injection hw' with hw'
        rw [hv'eq, hw']
      rw [lastPair_unique hmem huniq]
    | none =>
      have hnone : ∀ v', (t.name ++ "." ++ m.name, v') ∉
          pass1Acts (categorizeDataM d).typeIndex (overrideWalkFuel d) := by
        intro v' hv'
        obtain ⟨t', ht', hb', m', hm', hact'⟩ := (hmem_acts _ _).mp hv'
        obtain ⟨ho', tg', hw', hk', hv'eq⟩ := (hact_some t' m' _ _).mp hact'
        obtain ⟨hteq, hmeq⟩ := key_resolve t ht m hm t' ht' m' hm' hk'.symm
        subst hteq
        subst hmeq
        rw [hw] at hw'
        cases hw'
      rw [lastPair_none_of_not_mem hnone]
  · intro k tg hk
    rw [hview] at hk
    cases hl : lastPair k (pass1Acts (categorizeDataM d).typeIndex (overrideWalkFuel d)) with
    | none => rw [hl] at hk; cases hk
    | some i =>
      rw [hl] at hk
      dsimp only at hk
      obtain ⟨t, ht, hb, m, hm, hact⟩ := (hmem_acts _ _).mp (lastPair_mem hl)
      obtain ⟨ho, tg', hw, hkeq, hieq⟩ := (hact_some t m _ _).mp hact
      rw [hieq] at hk
      injection hk with hk
      exact ⟨t, ht, m, hm, hkeq, ho, hb, by rw [hw, hk]⟩

/-- Base type of the C1 corpus: its `Draw` method is neither `virtual` nor
`abstract`. -/
def c1Base : Ty :=
  { name := "B", kind := Kind.classKind, access_modifier := "public",
    modifiers := [], base_types := [], file := "A\\B.cs", line := 1,
    member_count := 1,
    members := [{ kind := MemberKind.method, name := "Draw",
                  access_modifier := "public", modifiers := [],
                  return_type := some "void", signature := "", line := 2 }] }

/-- The `override` member of the C1 corpus. -/
def c1DrawMember : Member :=
  { kind := MemberKind.method, name := "Draw", access_modifier := "public",
    modifiers := ["override"], return_type := some "void", signature := "", line := 2 }

/-- Derived type of the C1 corpus. -/
def c1Derived : Ty :=
  { name := "T", kind := Kind.classKind, access_modifier := "public",
    modifiers := [], base_types := ["B"], file := "A\\T.cs", line := 1,
    member_count := 1, members := [c1DrawMember] }

/-- The C1 corpus. -/
def c1Doc : DocsIndex :=
  { generated_at := "now", total_types := 2, total_members := 2,
    type_counts := { classCount := 2, structCount := 0, interfaceCount := 0, enumCount := 0 },
    types := [c1Base, c1Derived] }

/-- C1 counterexample: in a corpus where no member anywhere carries
`virtual` or `abstract`, the walk of the claim finds nothing, so per the
claim no edge may be recorded — yet construction records
`overrides['T.Draw'].overrides = 'B.Draw'` (the monolithic walk never
checks the base member's modifiers). -/
theorem c1_counterexample :
    ovView (categorizeDataM c1Doc).overrides "T.Draw" = some "B.Draw" ∧
    (∀ t ∈ c1Doc.types, ∀ m ∈ t.members,
      ("virtual" ∈ m.modifiers → False) ∧ ("abstract" ∈ m.modifiers → False)) := by
  exact ⟨rfl, by decide⟩

/-- Witness for the amended C1 theorem at the concrete corpus. -/
theorem c1_amended_witness :
    ovView (categorizeDataM c1Doc).overrides (c1Derived.name ++ "." ++ c1DrawMember.name) =
      findOverriddenMethod (categorizeDataM c1Doc).typeIndex c1DrawMember
        (overrideWalkFuel c1Doc) c1Derived.base_types :=
  (c1_amended_override_edge_characterisation c1Doc (by decide) (by decide) (by decide)).1
    c1Derived (by decide) c1DrawMember (by decide) (by decide) (by decide)

end RimDocs
